import Mathlib

/-!
Verification of the onchain-census-indexer event store and ingestion engine.

The development shallowly embeds the Go sources:
  * the event store (`store` package: `eventKey`, `eventPrefix`, `lastBlockKey`,
    `contractKey`, `SaveEvents`, `SaveContract`, `LastIndexedBlock`,
    `ListEvents` with its ascending and descending scans), and
  * the ingestion engine (`indexer` package: the `Run` cursor resolution,
    `syncOnce` window loop, `fetchLogs`, `parseLogs` and the
    retryable/fatal error classification).

The embedded key-value database is a key-sorted association list; iteration
with a prefix visits exactly the entries whose key starts with the prefix, in
ascending byte-lexicographic key order, which is the ordered-prefix-scan
contract the store requires from its storage collaborator.  Machine integers
(uint64 chain ids, block numbers, uint32 log indexes, 20-byte addresses)
are Nats with explicit bounds where the Go types guarantee them.
-/

namespace OCI

/-! ## Byte-lexicographic order on keys -/

/-- Strict byte-wise lexicographic order on byte lists: the order in which an
ordered key-value store iterates its keys (a strict prefix sorts first). -/
def lexLt : List Nat → List Nat → Bool
  | [], [] => false
  | [], _ :: _ => true
  | _ :: _, [] => false
  | a :: xs, b :: ys =>
    if a < b then true else if b < a then false else lexLt xs ys

theorem lexLt_irrefl (l : List Nat) : lexLt l l = false := by
  induction l with
  | nil => rfl
  | cons a xs ih => simp [lexLt, ih]

theorem lexLt_trans :
    ∀ {a b c : List Nat}, lexLt a b = true → lexLt b c = true → lexLt a c = true
  | [], _ :: _, _ :: _, _, _ => rfl
  | a :: xs, b :: ys, c :: zs, hab, hbc => by
    simp only [lexLt] at hab hbc ⊢
    split at hab
    · split at hbc
      · simp [show a < c by omega]
      · split at hbc
        · exact absurd hbc (by simp)
        · simp [show a < c by omega]
    · split at hab
      · exact absurd hab (by simp)
      · split at hbc
        · simp [show a < c by omega]
        · split at hbc
          · exact absurd hbc (by simp)
          · have : ¬ a < c := by omega
            simp only [if_neg this, show ¬ c < a by omega, if_neg]
            exact lexLt_trans hab hbc

theorem lexLt_total :
    ∀ {a b : List Nat}, a ≠ b → lexLt a b = true ∨ lexLt b a = true
  | [], [], h => absurd rfl h
  | [], _ :: _, _ => Or.inl rfl
  | _ :: _, [], _ => Or.inr rfl
  | a :: xs, b :: ys, h => by
    by_cases hab : a = b
    · subst hab
      have hxs : xs ≠ ys := fun he => h (by rw [he])
      rcases lexLt_total hxs with hl | hl
      · exact Or.inl (by simp [lexLt, hl])
      · exact Or.inr (by simp [lexLt, hl])
    · rcases Nat.lt_or_ge a b with hlt | hge
      · exact Or.inl (by simp [lexLt, hlt])
      · have : b < a := by omega
        exact Or.inr (by simp [lexLt, this])

theorem lexLt_asymm {a b : List Nat} (h : lexLt a b = true) : lexLt b a = false := by
  by_contra hc
  have hba : lexLt b a = true := by
    cases hh : lexLt b a
    · exact absurd hh hc
    · rfl
  have := lexLt_trans h hba
  rw [lexLt_irrefl] at this
  exact Bool.noConfusion this

theorem ne_of_lexLt {a b : List Nat} (h : lexLt a b = true) : a ≠ b := by
  intro he
  subst he
  rw [lexLt_irrefl] at h
  exact Bool.noConfusion h

/-- Comparing two keys that share a common block structure: when the leading
blocks have equal length, the lexicographic comparison is decided by the
leading blocks unless they are equal, in which case it proceeds on the tails. -/
theorem lexLt_append_block :
    ∀ (xs ys xt yt : List Nat), xs.length = ys.length →
      lexLt (xs ++ xt) (ys ++ yt) = (if xs = ys then lexLt xt yt else lexLt xs ys)
  | [], [], xt, yt, _ => by simp
  | [], _ :: _, _, _, h => by simp at h
  | _ :: _, [], _, _, h => by simp at h
  | a :: xs, b :: ys, xt, yt, h => by
    have hlen : xs.length = ys.length := by simpa using h
    have ih := lexLt_append_block xs ys xt yt hlen
    by_cases hab : a < b
    · have hne : (a :: xs : List Nat) ≠ b :: ys := by
        intro hc; injection hc with h1 _; omega
      simp [lexLt, hab, hne]
    · by_cases hba : b < a
      · have hne : (a :: xs : List Nat) ≠ b :: ys := by
          intro hc; injection hc with h1 _; omega
        simp [lexLt, hab, hba, hne]
      · have haeq : a = b := by omega
        subst haeq
        by_cases hxy : xs = ys
        · subst hxy
          simp [lexLt, ih]
        · have hne : (a :: xs : List Nat) ≠ a :: ys := by
            intro hc; injection hc with _ h2; exact hxy h2
          simp [lexLt, hab, hba, hne, ih, hxy]

theorem lexLt_append_left (xs ys zs : List Nat) :
    lexLt (xs ++ ys) (xs ++ zs) = lexLt ys zs := by
  rw [lexLt_append_block xs xs ys zs rfl, if_pos rfl]

/-- `isLeading p k` holds when `p` is an initial segment of `k`: the
prefix-scan membership test of the ordered key-value store. -/
def isLeading : List Nat → List Nat → Bool
  | [], _ => true
  | _ :: _, [] => false
  | a :: xs, b :: ys => if a = b then isLeading xs ys else false

theorem isLeading_append (xs t : List Nat) : isLeading xs (xs ++ t) = true := by
  induction xs with
  | nil => rfl
  | cons a xs ih => simp [isLeading, ih]

theorem isLeading_sameLength :
    ∀ (xs ys t : List Nat), xs.length = ys.length →
      (isLeading xs (ys ++ t) = true ↔ xs = ys)
  | [], [], t, _ => by simp [isLeading]
  | [], _ :: _, _, h => by simp at h
  | _ :: _, [], _, h => by simp at h
  | a :: xs, b :: ys, t, h => by
    have hlen : xs.length = ys.length := by simpa using h
    constructor
    · intro hl
      simp only [List.cons_append, isLeading] at hl
      split at hl
      · rename_i hab
        subst hab
        rw [(isLeading_sameLength xs ys t hlen).mp hl]
      · exact absurd hl (by simp)
    · intro he
      rw [he]
      exact isLeading_append _ _

/-! ## Fixed-width big-endian encoding -/

/-- `beBytes w n` is the fixed-width (`w` bytes) big-endian encoding of `n`
(its low `8*w` bits), as written by `binary.BigEndian.PutUint64` /
`PutUint32` and by copying a 20-byte address. -/
def beBytes : Nat → Nat → List Nat
  | 0, _ => []
  | w + 1, n => beBytes w (n / 256) ++ [n % 256]

theorem length_beBytes : ∀ (w n : Nat), (beBytes w n).length = w
  | 0, _ => rfl
  | w + 1, n => by simp [beBytes, length_beBytes w]

/-- Fixed-width big-endian encoding is order-preserving: for values in range,
lexicographic byte order of the encodings equals numeric order. -/
theorem beBytes_lt_iff :
    ∀ (w n m : Nat), n < 256 ^ w → m < 256 ^ w →
      (lexLt (beBytes w n) (beBytes w m) = true ↔ n < m)
  | 0, n, m, hn, hm => by
    simp only [pow_zero, Nat.lt_one_iff] at hn hm
    subst hn; subst hm
    simp [beBytes, lexLt]
  | w + 1, n, m, hn, hm => by
    have h256 : (0 : Nat) < 256 := by norm_num
    have hn' : n / 256 < 256 ^ w := by
      rw [Nat.div_lt_iff_lt_mul h256]
      calc n < 256 ^ (w + 1) := hn
        _ = 256 ^ w * 256 := by rw [pow_succ]
    have hm' : m / 256 < 256 ^ w := by
      rw [Nat.div_lt_iff_lt_mul h256]
      calc m < 256 ^ (w + 1) := hm
        _ = 256 ^ w * 256 := by rw [pow_succ]
    have hblock := lexLt_append_block (beBytes w (n / 256)) (beBytes w (m / 256))
      [n % 256] [m % 256] (by rw [length_beBytes, length_beBytes])
    simp only [beBytes, hblock]
    by_cases hd : n / 256 = m / 256
    · have hmods : n % 256 < m % 256 ↔ n < m := by
        have h1 := Nat.div_add_mod n 256
        have h2 := Nat.div_add_mod m 256
        omega
      have hbe : beBytes w (n / 256) = beBytes w (m / 256) := by rw [hd]
      simp only [if_pos hbe, lexLt]
      constructor
      · intro hl
        split at hl
        · exact hmods.mp (by assumption)
        · split at hl
          · exact absurd hl (by simp)
          · exact absurd hl (by simp [lexLt])
      · intro hnm
        simp [hmods.mpr hnm]
    · have hne : beBytes w (n / 256) ≠ beBytes w (m / 256) := by
        intro he
        rcases Nat.lt_or_ge (n / 256) (m / 256) with hlt | hge
        · have := (beBytes_lt_iff w _ _ hn' hm').mpr hlt
          rw [he, lexLt_irrefl] at this
          exact Bool.noConfusion this
        · have hgt : m / 256 < n / 256 := by omega
          have := (beBytes_lt_iff w _ _ hm' hn').mpr hgt
          rw [he, lexLt_irrefl] at this
          exact Bool.noConfusion this
      rw [if_neg hne, beBytes_lt_iff w _ _ hn' hm']
      have h1 := Nat.div_add_mod n 256
      have h2 := Nat.div_add_mod m 256
      have hb1 : n % 256 < 256 := Nat.mod_lt _ (by norm_num)
      have hb2 : m % 256 < 256 := Nat.mod_lt _ (by norm_num)
      omega

theorem beBytes_inj {w n m : Nat} (hn : n < 256 ^ w) (hm : m < 256 ^ w)
    (h : beBytes w n = beBytes w m) : n = m := by
  by_contra hne
  rcases Nat.lt_or_ge n m with hlt | hge
  · have := (beBytes_lt_iff w n m hn hm).mpr hlt
    rw [h, lexLt_irrefl] at this
    exact Bool.noConfusion this
  · have hgt : m < n := by omega
    have := (beBytes_lt_iff w m n hm hn).mpr hgt
    rw [h, lexLt_irrefl] at this
    exact Bool.noConfusion this

/-! ## Hex addresses (go-ethereum `common.IsHexAddress` / `HexToAddress` /
`Address.Hex`), over Go strings modelled as `List Char` -/

/-- go-ethereum `isHexCharacter`: `0-9`, `a-f`, `A-F`. -/
def isHexChar (c : Char) : Bool :=
  if 48 ≤ c.toNat ∧ c.toNat ≤ 57 then true
  else if 97 ≤ c.toNat ∧ c.toNat ≤ 102 then true
  else if 65 ≤ c.toNat ∧ c.toNat ≤ 70 then true
  else false

/-- Numeric value of a hex digit (0 on non-digits, which the callers rule
out by validating with `isHexChar` first). -/
def hexCharVal (c : Char) : Nat :=
  if 48 ≤ c.toNat ∧ c.toNat ≤ 57 then c.toNat - 48
  else if 97 ≤ c.toNat ∧ c.toNat ≤ 102 then c.toNat - 87
  else if 65 ≤ c.toNat ∧ c.toNat ≤ 70 then c.toNat - 55
  else 0

/-- Strip a leading `0x` / `0X`, as go-ethereum's `has0xPrefix` + slice. -/
def stripHexPre (s : List Char) : List Char :=
  match s with
  | c0 :: c1 :: rest => if c0 = '0' ∧ (c1 = 'x' ∨ c1 = 'X') then rest else s
  | _ => s

/-- go-ethereum `common.IsHexAddress`: after stripping an optional `0x`,
exactly `2*AddressLength = 40` hex characters. -/
def isHexAddress (s : List Char) : Bool :=
  let t := stripHexPre s
  t.length == 40 && t.all isHexChar

/-- Value of a hex digit string, most significant digit first. -/
def parseHexNat (s : List Char) : Nat :=
  s.foldl (fun acc c => acc * 16 + hexCharVal c) 0

/-- go-ethereum `common.HexToAddress`: parse the (optionally `0x`-prefixed)
hex string and keep the low 20 bytes (`BytesToAddress` crops from the left,
i.e. reduces the value mod `2^160`).  The store applies it only to strings
accepted by `isHexAddress`. -/
def hexToAddress (s : List Char) : Nat :=
  parseHexNat (stripHexPre s) % 2 ^ 160

/-- Lower-case hex digit of a nibble. -/
def nibbleChar (n : Nat) : Char :=
  if n < 10 then Char.ofNat (48 + n) else Char.ofNat (87 + n)

/-- Fixed-width big-endian nibble decomposition (for rendering hex). -/
def beNibbles : Nat → Nat → List Nat
  | 0, _ => []
  | w + 1, n => beNibbles w (n / 16) ++ [n % 16]

/-- `common.Address.Hex()` of an address value: `0x` followed by 40 hex
digits.  Go applies EIP-55 mixed casing on top; validation (`isHexAddress`)
and parsing (`hexToAddress`) are case-insensitive, so the casing is
immaterial to the store's behaviour and is modelled as lower case. -/
def addrHex (a : Nat) : List Char :=
  '0' :: 'x' :: (beNibbles 40 a).map nibbleChar

theorem length_beNibbles : ∀ (w n : Nat), (beNibbles w n).length = w
  | 0, _ => rfl
  | w + 1, n => by simp [beNibbles, length_beNibbles w]

theorem beNibbles_lt : ∀ (w n : Nat), ∀ x ∈ beNibbles w n, x < 16
  | 0, _ => by intro x hx; simp [beNibbles] at hx
  | w + 1, n => by
    intro x hx
    simp only [beNibbles, List.mem_append, List.mem_singleton] at hx
    rcases hx with hx | hx
    · exact beNibbles_lt w (n / 16) x hx
    · subst hx; exact Nat.mod_lt _ (by norm_num)

theorem isHexChar_nibbleChar {n : Nat} (h : n < 16) : isHexChar (nibbleChar n) = true := by
  interval_cases n <;> decide

theorem hexCharVal_nibbleChar {n : Nat} (h : n < 16) : hexCharVal (nibbleChar n) = n := by
  interval_cases n <;> decide

theorem parseHexNat_beNibbles :
    ∀ (w n : Nat), parseHexNat ((beNibbles w n).map nibbleChar) = n % 16 ^ w
  | 0, n => by simp [beNibbles, parseHexNat, Nat.mod_one]
  | w + 1, n => by
    have ih := parseHexNat_beNibbles w (n / 16)
    simp only [beNibbles, List.map_append, List.map_cons, List.map_nil, parseHexNat,
      List.foldl_append, List.foldl_cons, List.foldl_nil] at ih ⊢
    rw [ih, hexCharVal_nibbleChar (Nat.mod_lt _ (by norm_num))]
    have hps : (16 : Nat) ^ (w + 1) = 16 * 16 ^ w := pow_succ' 16 w
    have h1 : n % (16 * 16 ^ w) / 16 = n / 16 % 16 ^ w :=
      Nat.mod_mul_right_div_self n 16 (16 ^ w)
    have h2 : n % (16 * 16 ^ w) % 16 = n % 16 :=
      Nat.mod_mod_of_dvd n ⟨16 ^ w, rfl⟩
    have h3 := Nat.div_add_mod (n % (16 * 16 ^ w)) 16
    rw [hps]
    omega

theorem hexToAddress_addrHex (a : Nat) : hexToAddress (addrHex a) = a % 2 ^ 160 := by
  have hstrip : stripHexPre (addrHex a) = (beNibbles 40 a).map nibbleChar := by
    simp [stripHexPre, addrHex]
  have hpow : (16 : Nat) ^ 40 = 2 ^ 160 := by
    rw [show (16 : Nat) = 2 ^ 4 by norm_num, ← pow_mul]
  rw [hexToAddress, hstrip, parseHexNat_beNibbles, hpow]
  exact Nat.mod_mod_of_dvd a dvd_rfl

theorem hexToAddress_lt (s : List Char) : hexToAddress s < 2 ^ 160 :=
  Nat.mod_lt _ (by positivity)

theorem isHexAddress_addrHex (a : Nat) : isHexAddress (addrHex a) = true := by
  have hstrip : stripHexPre (addrHex a) = (beNibbles 40 a).map nibbleChar := by
    simp [stripHexPre, addrHex]
  simp only [isHexAddress, hstrip, List.length_map, length_beNibbles,
    List.all_eq_true, Bool.and_eq_true, beq_iff_eq]
  refine ⟨trivial, ?_⟩
  intro c hc
  rcases List.mem_map.mp hc with ⟨x, hx, hcx⟩
  subst hcx
  exact isHexChar_nibbleChar (beNibbles_lt 40 a x hx)

/-! ## Store data model (store package) -/

/-- `store.Event`: a WeightChanged event row.  Go string fields are
`List Char`; `chainID` is uint64, `blockNumber` uint64, `logIndex` uint32. -/
structure Event where
  chainID : Nat
  contract : List Char
  account : List Char
  previousWeight : List Char
  newWeight : List Char
  blockNumber : Nat
  logIndex : Nat
deriving DecidableEq

/-- `store.ContractRecord`: a stored contract configuration. -/
structure ContractRecord where
  chainID : Nat
  contract : List Char
  startBlock : Nat
deriving DecidableEq

/-- A persisted payload, modelled by its decoded content: `ev` is the JSON
marshalling of an event row, `u64` the 8-byte big-endian checkpoint written
by `encodeUint64`, `reg` the JSON marshalling of a contract record.  Decoders
(`json.Unmarshal` into an `Event`, `decodeUint64`'s length-8 check) succeed
exactly on the matching payload kind. -/
inductive DBValue where
  | ev (e : Event)
  | u64 (n : Nat)
  | reg (r : ContractRecord)
deriving DecidableEq

abbrev Key := List Nat

/-- The embedded ordered key-value database: an association list strictly
sorted by byte-lexicographic key order.  `Iterate(prefix, fn)` visits the
entries whose key starts with the prefix, in this order. -/
abbrev DB := List (Key × DBValue)

/-- Bytes of the Go constant `eventKeyPrefix = "evt:"`. -/
def eventKeyPreB : Key := [101, 118, 116, 58]

/-- Bytes of the Go constant `lastBlockKeyPrefix = "meta:last_block:"`. -/
def lastBlockKeyPreB : Key :=
  [109, 101, 116, 97, 58, 108, 97, 115, 116, 95, 98, 108, 111, 99, 107, 58]

/-- Bytes of the Go constant `contractKeyPrefix = "meta:contract:"`. -/
def contractKeyPreB : Key :=
  [109, 101, 116, 97, 58, 99, 111, 110, 116, 114, 97, 99, 116, 58]

/-- `store.eventKey`: `"evt:" || chainID(8,BE) || contract(20) ||
blockNumber(8,BE) || logIndex(4,BE)`. -/
def eventKey (chainID contract blockNumber logIndex : Nat) : Key :=
  eventKeyPreB ++ beBytes 8 chainID ++ beBytes 20 contract ++
    beBytes 8 blockNumber ++ beBytes 4 logIndex

/-- `store.eventPrefix`: `"evt:" || chainID(8,BE) || contract(20)`. -/
def eventPre (chainID contract : Nat) : Key :=
  eventKeyPreB ++ beBytes 8 chainID ++ beBytes 20 contract

/-- `store.lastBlockKey`: `"meta:last_block:" || chainID(8,BE) || contract(20)`. -/
def lastBlockKey (chainID contract : Nat) : Key :=
  lastBlockKeyPreB ++ beBytes 8 chainID ++ beBytes 20 contract

/-- `store.contractKey`: `"meta:contract:" || chainID(8,BE) || contract(20)`. -/
def contractKey (chainID contract : Nat) : Key :=
  contractKeyPreB ++ beBytes 8 chainID ++ beBytes 20 contract

/-- `db.Get`: the value stored at a key, if any. -/
def dbGet : DB → Key → Option DBValue
  | [], _ => none
  | (k', v) :: rest, k => if k = k' then some v else dbGet rest k

/-- `tx.Set` as applied at commit time: ordered insert, replacing an equal
key, preserving the strict key ordering of the database. -/
def dbSet : DB → Key → DBValue → DB
  | [], k, v => [(k, v)]
  | (k', v') :: rest, k, v =>
    if lexLt k k' = true then (k, v) :: (k', v') :: rest
    else if k = k' then (k, v) :: rest
    else (k', v') :: dbSet rest k v

/-- `tx.Commit`: apply the transaction's buffered writes, in order. -/
def commitList (db : DB) (pending : List (Key × DBValue)) : DB :=
  pending.foldl (fun d p => dbSet d p.1 p.2) db

/-- The database invariant: strictly increasing byte-lexicographic key order
(keys are unique). -/
def sortedDB (db : DB) : Prop :=
  db.Pairwise (fun p q => lexLt p.1 q.1 = true)

/-- The values visited by `db.Iterate(pre, fn)`, in iteration order. -/
def dbIterVals (db : DB) (pre : Key) : List DBValue :=
  (db.filter fun p => isLeading pre p.1).map Prod.snd

/-! ## Store operations -/

/-- `store.encodeUint64`: the 8-byte big-endian payload of a checkpoint. -/
def encodeUint64 (n : Nat) : DBValue := .u64 n

/-- `store.decodeUint64`: succeeds exactly on an 8-byte payload (the `u64`
payload kind); any other payload has a different length and is rejected. -/
def decodeUint64 : DBValue → Except String Nat
  | .u64 n => .ok n
  | _ => .error "invalid uint64 length"

/-- `Store.LastIndexedBlock`: read the checkpoint; `(0, false)` when the key
is absent (`db.ErrKeyNotFound`). -/
def LastIndexedBlock (db : DB) (chainID contract : Nat) : Except String (Nat × Bool) :=
  match dbGet db (lastBlockKey chainID contract) with
  | none => .ok (0, false)
  | some v =>
    match decodeUint64 v with
    | .error m => .error ("decode last indexed block: " ++ m)
    | .ok block => .ok (block, true)

/-- The `for _, event := range events` loop body of `Store.SaveEvents`:
validate each event and buffer its `tx.Set` write, stopping at the first
invalid event (the transaction is then discarded). -/
def buildPending : List Event → List (Key × DBValue) → Except String (List (Key × DBValue))
  | [], acc => .ok acc
  | e :: rest, acc =>
    if e.chainID = 0 then .error "event chainID is required"
    else if isHexAddress e.contract = false then .error "event contract is invalid"
    else
      buildPending rest
        (acc ++ [(eventKey e.chainID (hexToAddress e.contract) e.blockNumber e.logIndex, .ev e)])

/-- `Store.SaveEvents`: validate the target, buffer one write per event plus
the checkpoint write, and commit them in one transaction.  The returned
database is the caller's database unchanged on every error path (the deferred
`tx.Discard`), and the committed database on success. -/
def SaveEvents (db : DB) (chainID contract : Nat) (events : List Event)
    (lastIndexedBlock : Nat) : Except String Unit × DB :=
  if chainID = 0 then (.error "chainID is required", db)
  else if contract = 0 then (.error "contract address is required", db)
  else
    match buildPending events [] with
    | .error m => (.error m, db)
    | .ok pend =>
      (.ok (),
        commitList db (pend ++ [(lastBlockKey chainID contract, encodeUint64 lastIndexedBlock)]))

/-- `Store.SaveContract`: validate the target; if a record already exists the
call is a no-op returning success; otherwise marshal and commit the record. -/
def SaveContract (db : DB) (chainID contract startBlock : Nat) : Except String Unit × DB :=
  if chainID = 0 then (.error "chainID is required", db)
  else if contract = 0 then (.error "contract address is required", db)
  else
    match dbGet db (contractKey chainID contract) with
    | some _ => (.ok (), db)
    | none =>
      (.ok (),
        commitList db [(contractKey chainID contract,
          .reg { chainID := chainID, contract := addrHex contract, startBlock := startBlock })])

/-- `store.ListOptions`: pagination (`First`/`Skip` are Go ints) and
ordering options; `ChainID`/`Contract` scope the scan to one target. -/
structure ListOptions where
  first : Int
  skip : Int
  orderBy : List Char
  orderDirection : List Char
  chainID : Nat
  contract : Nat

def blockNumberLit : List Char := ['b', 'l', 'o', 'c', 'k', 'N', 'u', 'm', 'b', 'e', 'r']

def ascLit : List Char := ['a', 's', 'c']

def descLit : List Char := ['d', 'e', 's', 'c']

/-- The iteration callback of `Store.listEventsAsc`, over the visited values:
first skip `skip` entries without decoding, then stop once `first > 0`
entries are collected, decoding each collected payload as an event. -/
def ascLoop (skip first : Int) : List DBValue → Int → List Event → Except String (List Event)
  | [], _, results => .ok results
  | v :: rest, skipped, results =>
    if skipped < skip then ascLoop skip first rest (skipped + 1) results
    else if 0 < first ∧ first ≤ (results.length : Int) then .ok results
    else
      match v with
      | .ev e => ascLoop skip first rest skipped (results ++ [e])
      | _ => .error "decode event: invalid payload"

/-- `Store.listEventsAsc`: one forward prefix scan with skip/first applied
during iteration. -/
def listEventsAsc (db : DB) (opts : ListOptions) (pre : Key) : Except String (List Event) :=
  ascLoop opts.skip opts.first (dbIterVals db pre) 0 []

/-- The collection phase of `Store.listEventsDesc`: decode every visited
value, in iteration order. -/
def descCollect : List DBValue → Except String (List Event)
  | [] => .ok []
  | v :: rest =>
    match v with
    | .ev e =>
      match descCollect rest with
      | .ok evs => .ok (e :: evs)
      | .error m => .error m
    | _ => .error "decode event: invalid payload"

/-- The windowing phase of `Store.listEventsDesc`, applied after reversing:
`start := skip`, empty if `start > len`, `end := start+first` when `first > 0`
and that is below `len`, the slice `all[start:end]`. -/
def descWindow (all : List Event) (skip first : Int) : List Event :=
  if (all.length : Int) < skip then []
  else
    let endIdx : Int :=
      if 0 < first ∧ skip + first < (all.length : Int) then skip + first else (all.length : Int)
    (all.drop skip.toNat).take (endIdx - skip).toNat

/-- `Store.listEventsDesc`: collect the entire matching range, reverse it in
memory, then apply the skip/first window. -/
def listEventsDesc (db : DB) (opts : ListOptions) (pre : Key) : Except String (List Event) :=
  match descCollect (dbIterVals db pre) with
  | .error m => .error m
  | .ok all => .ok (descWindow all.reverse opts.skip opts.first)

/-- `Store.ListEvents`: argument validation, defaulting of the order field
and direction, scoping of the scan to a target (or the global `"evt:"`
range), and dispatch to the ascending or descending scan. -/
def ListEvents (db : DB) (opts : ListOptions) : Except String (List Event) :=
  if opts.first < 0 ∨ opts.skip < 0 then .error "first and skip must be non-negative"
  else
    let orderBy := if opts.orderBy = [] then blockNumberLit else opts.orderBy
    if orderBy ≠ blockNumberLit then .error ("unsupported orderBy: " ++ String.mk orderBy)
    else
      let orderDirection := if opts.orderDirection = [] then ascLit else opts.orderDirection
      match
        (if opts.chainID ≠ 0 ∨ opts.contract ≠ 0 then
          (if opts.chainID = 0 ∨ opts.contract = 0 then
            .error "both chainID and contract are required for filtering"
          else .ok (eventPre opts.chainID opts.contract))
        else .ok eventKeyPreB : Except String Key)
      with
      | .error m => .error m
      | .ok pre =>
        if orderDirection = descLit then listEventsDesc db opts pre
        else if orderDirection ≠ ascLit then
          .error ("unsupported orderDirection: " ++ String.mk orderDirection)
        else listEventsAsc db opts pre

/-! ## Ingestion engine (indexer package) -/

/-- An engine error: `retryable` models errors wrapped with `errRetryable`
(`errors.Is(err, errRetryable)` holds), `fatal` every other error. -/
inductive IndexErr where
  | retryable (msg : String)
  | fatal (msg : String)
deriving DecidableEq

/-- A raw chain log as delivered by `FilterLogs`: its topic hashes (32-byte
values), its ABI-decodable data payload (`none` when `UnpackIntoInterface`
would fail), and its position. -/
structure RawLog where
  topics : List Nat
  data : Option (Nat × Nat)
  blockNumber : Nat
  index : Nat
deriving DecidableEq

/-- The chain-data collaborator: `BlockNumber` (head query) and `FilterLogs`
over an inclusive block range, each possibly failing. -/
structure Chain where
  head : Except String Nat
  logs : Nat → Nat → Except String (List RawLog)

/-- The comparator of the `sort.Slice` call in `fetchLogs`: ascending
`(blockNumber, index)`. -/
def logLess (x y : RawLog) : Bool :=
  if x.blockNumber = y.blockNumber then x.index < y.index else x.blockNumber < y.blockNumber

def insertLog (x : RawLog) : List RawLog → List RawLog
  | [] => [x]
  | y :: ys => if logLess x y then x :: y :: ys else y :: insertLog x ys

/-- The `sort.Slice(logs, ...)` step of `fetchLogs`. -/
def sortLogs : List RawLog → List RawLog
  | [] => []
  | x :: xs => insertLog x (sortLogs xs)

/-- `Indexer.fetchLogs`: query the collaborator for the window's logs — a
failure is wrapped retryable — and sort them by `(blockNumber, index)`. -/
def fetchLogs (ch : Chain) (fromB toB : Nat) : Except IndexErr (List RawLog) :=
  match ch.logs fromB toB with
  | .error m => .error (.retryable ("filter logs: " ++ m))
  | .ok ls => .ok (sortLogs ls)

/-- `Indexer.parseLogs`: decode each log into an event row; a log without its
indexed account topic, a log index outside uint32, or an undecodable data
payload aborts with a (fatal) error.  The account is
`HexToAddress(Topics[1].Hex())`, i.e. the topic value reduced to 20 bytes. -/
def parseLogs (chainID contract : Nat) : List RawLog → Except String (List Event)
  | [] => .ok []
  | lg :: rest =>
    if hlen : lg.topics.length < 2 then .error "log missing indexed account topic"
    else if 2 ^ 32 - 1 < lg.index then .error "log index overflows uint32"
    else
      match lg.data with
      | none => .error "unpack log data"
      | some (prev, new) =>
        match parseLogs chainID contract rest with
        | .error m => .error m
        | .ok evs =>
          .ok ({ chainID := chainID
                 contract := addrHex contract
                 account := addrHex (lg.topics.get ⟨1, by omega⟩ % 2 ^ 160)
                 previousWeight := Nat.toDigits 10 prev
                 newWeight := Nat.toDigits 10 new
                 blockNumber := lg.blockNumber
                 logIndex := lg.index } :: evs)

/-- The `for *lastBlock < head` window loop of `Indexer.syncOnce`: fetch,
parse and commit one window at a time, advancing the cursor to the window's
upper bound after each successful commit; `fetchLogs` failures are
retryable, parse and store failures fatal.  Returns the error outcome, the
database and the cursor as left by the loop. -/
def syncLoop (ch : Chain) (chainID contract batchSize : Nat) (hbs : 0 < batchSize)
    (head : Nat) (db : DB) (lastBlock : Nat) : Except IndexErr Unit × DB × Nat :=
  if h : lastBlock < head then
    let fromB := lastBlock + 1
    let to0 := fromB + batchSize - 1
    let toB := if head < to0 then head else to0
    match fetchLogs ch fromB toB with
    | .error e => (.error e, db, lastBlock)
    | .ok logs =>
      match parseLogs chainID contract logs with
      | .error m => (.error (.fatal m), db, lastBlock)
      | .ok events =>
        match SaveEvents db chainID contract events toB with
        | (.error m, db') => (.error (.fatal ("store events: " ++ m)), db', lastBlock)
        | (.ok _, db') => syncLoop ch chainID contract batchSize hbs head db' toB
  else (.ok (), db, lastBlock)
termination_by head - lastBlock
decreasing_by
  split <;> omega

/-- `Indexer.syncOnce`: query the chain head — a failure is wrapped
retryable — and, when the cursor is behind it, drain the backlog with the
window loop. -/
def syncOnce (ch : Chain) (chainID contract batchSize : Nat) (hbs : 0 < batchSize)
    (db : DB) (lastBlock : Nat) : Except IndexErr Unit × DB × Nat :=
  match ch.head with
  | .error m => (.error (.retryable ("fetch head block: " ++ m)), db, lastBlock)
  | .ok head =>
    if head ≤ lastBlock then (.ok (), db, lastBlock)
    else syncLoop ch chainID contract batchSize hbs head db lastBlock

/-- `Indexer.Run`'s cursor resolution (`RESOLVE_START`): seed the cursor from
`LastIndexedBlock`'s `(lastBlock, ok)` and the configured `startBlock`. -/
def resolveStartCursor (lastBlock : Nat) (ok : Bool) (startBlock : Nat) : Nat :=
  if ok = false then
    if 0 < startBlock then startBlock - 1 else lastBlock
  else if 0 < startBlock ∧ lastBlock + 1 < startBlock then startBlock - 1
  else lastBlock

/-- The outcome of one pass of `Indexer.Run`'s loop: either the loop goes on
to wait the poll interval and iterate again with the (possibly advanced)
cursor, or `Run` returns the error to its caller and the engine stops. -/
inductive LoopOutcome where
  | next (db : DB) (cursor : Nat)
  | halt (msg : String)
deriving DecidableEq

/-- One iteration of the `for` loop of `Indexer.Run`: a retryable `syncOnce`
error is logged and the loop continues; any other error is returned. -/
def runIteration (ch : Chain) (chainID contract batchSize : Nat) (hbs : 0 < batchSize)
    (db : DB) (cursor : Nat) : LoopOutcome :=
  match syncOnce ch chainID contract batchSize hbs db cursor with
  | (.ok _, db', cursor') => .next db' cursor'
  | (.error (.retryable _), db', cursor') => .next db' cursor'
  | (.error (.fatal m), _, _) => .halt m

/-! ## Database-layer lemmas -/

theorem dbGet_dbSet_self : ∀ (db : DB) (k : Key) (v : DBValue), dbGet (dbSet db k v) k = some v
  | [], k, v => by simp [dbSet, dbGet]
  | (k', v') :: rest, k, v => by
    simp only [dbSet]
    split
    · simp [dbGet]
    · split
      · simp [dbGet]
      · rename_i hlt hne
        simp only [dbGet, if_neg hne]
        exact dbGet_dbSet_self rest k v

theorem dbGet_dbSet_ne :
    ∀ (db : DB) (k : Key) (v : DBValue) (k' : Key), k' ≠ k →
      dbGet (dbSet db k v) k' = dbGet db k'
  | [], k, v, k', h => by simp [dbSet, dbGet, h]
  | (k0, v0) :: rest, k, v, k', h => by
    simp only [dbSet]
    split
    · simp [dbGet, h]
    · split
      · rename_i hlt heq
        subst heq
        simp [dbGet, h]
      · simp only [dbGet]
        split
        · rfl
        · exact dbGet_dbSet_ne rest k v k' h

theorem mem_dbSet :
    ∀ (db : DB) (k : Key) (v : DBValue) (p : Key × DBValue),
      p ∈ dbSet db k v → p = (k, v) ∨ p ∈ db
  | [], k, v, p, h => by
    simp only [dbSet, List.mem_singleton] at h
    exact Or.inl h
  | (k0, v0) :: rest, k, v, p, h => by
    simp only [dbSet] at h
    split at h
    · rcases List.mem_cons.mp h with h1 | h1
      · exact Or.inl h1
      · exact Or.inr h1
    · split at h
      · rcases List.mem_cons.mp h with h1 | h1
        · exact Or.inl h1
        · exact Or.inr (List.mem_cons_of_mem _ h1)
      · rcases List.mem_cons.mp h with h1 | h1
        · exact Or.inr (by rw [h1]; exact List.mem_cons_self _ _)
        · rcases mem_dbSet rest k v p h1 with h2 | h2
          · exact Or.inl h2
          · exact Or.inr (List.mem_cons_of_mem _ h2)

theorem sorted_dbSet :
    ∀ (db : DB) (k : Key) (v : DBValue), sortedDB db → sortedDB (dbSet db k v)
  | [], k, v, _ => by simp [sortedDB, dbSet]
  | (k0, v0) :: rest, k, v, hs => by
    have hs' := (List.pairwise_cons.mp hs)
    simp only [dbSet]
    split
    · rename_i hlt
      refine List.pairwise_cons.mpr ⟨?_, hs⟩
      intro q hq
      rcases List.mem_cons.mp hq with hq | hq
      · subst hq; exact hlt
      · exact lexLt_trans hlt (hs'.1 q hq)
    · split
      · rename_i hlt heq
        subst heq
        exact List.pairwise_cons.mpr ⟨hs'.1, hs'.2⟩
      · rename_i hlt hne
        refine List.pairwise_cons.mpr ⟨?_, sorted_dbSet rest k v hs'.2⟩
        intro q hq
        rcases mem_dbSet rest k v q hq with hq' | hq'
        · subst hq'
          rcases lexLt_total (a := k) (b := k0) (fun he => hne he) with h | h
          · exact absurd h (by simp [hlt])
          · exact h
        · exact hs'.1 q hq'

theorem sorted_commitList :
    ∀ (pending : List (Key × DBValue)) (db : DB), sortedDB db → sortedDB (commitList db pending)
  | [], db, h => h
  | p :: rest, db, h =>
    sorted_commitList rest (dbSet db p.1 p.2) (sorted_dbSet db p.1 p.2 h)

theorem mem_commitList :
    ∀ (pending : List (Key × DBValue)) (db : DB) (p : Key × DBValue),
      p ∈ commitList db pending → p ∈ db ∨ p ∈ pending
  | [], db, p, h => Or.inl h
  | q :: rest, db, p, h => by
    rcases mem_commitList rest (dbSet db q.1 q.2) p h with h' | h'
    · rcases mem_dbSet db q.1 q.2 p h' with h'' | h''
      · exact Or.inr (by simp [h''])
      · exact Or.inl h''
    · exact Or.inr (List.mem_cons_of_mem _ h')

/-- The last buffered write to a key, if any. -/
def lastWrite (pending : List (Key × DBValue)) (k : Key) : Option DBValue :=
  pending.foldl (fun acc p => if p.1 = k then some p.2 else acc) none

theorem lastWrite_shift (k : Key) :
    ∀ (rest : List (Key × DBValue)) (a : Option DBValue),
      rest.foldl (fun acc p => if p.1 = k then some p.2 else acc) a =
        match rest.foldl (fun acc p => if p.1 = k then some p.2 else acc) none with
        | some v => some v
        | none => a
  | [], a => rfl
  | q :: rest, a => by
    simp only [List.foldl_cons]
    rw [lastWrite_shift k rest (if q.1 = k then some q.2 else a),
      lastWrite_shift k rest (if q.1 = k then some q.2 else none)]
    by_cases hq : q.1 = k <;> cases rest.foldl (fun acc p => if p.1 = k then some p.2 else acc) none <;>
      simp [hq]

theorem dbGet_commitList :
    ∀ (pending : List (Key × DBValue)) (db : DB) (k : Key),
      dbGet (commitList db pending) k =
        match lastWrite pending k with
        | some v => some v
        | none => dbGet db k
  | [], db, k => rfl
  | q :: rest, db, k => by
    have ih := dbGet_commitList rest (dbSet db q.1 q.2) k
    simp only [commitList, List.foldl_cons] at ih ⊢
    rw [ih]
    simp only [lastWrite, List.foldl_cons]
    rw [lastWrite_shift k rest (if q.1 = k then some q.2 else none)]
    by_cases hq : q.1 = k
    · cases hfold : rest.foldl (fun acc p => if p.1 = k then some p.2 else acc) none <;>
        simp [hq, lastWrite, hfold, hq ▸ dbGet_dbSet_self db q.1 q.2]
    · have hne : k ≠ q.1 := fun he => hq he.symm
      cases hfold : rest.foldl (fun acc p => if p.1 = k then some p.2 else acc) none <;>
        simp [hq, lastWrite, hfold, dbGet_dbSet_ne db q.1 q.2 k hne]
  termination_by pending => pending.length

theorem lastWrite_cons (q : Key × DBValue) (rest : List (Key × DBValue)) (k : Key) :
    lastWrite (q :: rest) k =
      match lastWrite rest k with
      | some v => some v
      | none => if q.1 = k then some q.2 else none := by
  simp only [lastWrite, List.foldl_cons]
  rw [lastWrite_shift k rest (if q.1 = k then some q.2 else none)]

theorem lastWrite_eq_none (pending : List (Key × DBValue)) (k : Key)
    (h : ∀ p ∈ pending, p.1 ≠ k) : lastWrite pending k = none := by
  induction pending with
  | nil => rfl
  | cons q rest ih =>
    rw [lastWrite_cons, ih (fun p hp => h p (List.mem_cons_of_mem _ hp))]
    simp [h q (List.mem_cons_self q rest)]

theorem lastWrite_append_last (xs : List (Key × DBValue)) (q : Key × DBValue) (k : Key)
    (hq : q.1 = k) : lastWrite (xs ++ [q]) k = some q.2 := by
  simp [lastWrite, List.foldl_append, hq]

theorem lastWrite_append_last_ne (xs : List (Key × DBValue)) (q : Key × DBValue) (k : Key)
    (hq : q.1 ≠ k) : lastWrite (xs ++ [q]) k = lastWrite xs k := by
  simp [lastWrite, List.foldl_append, hq]

theorem dbGet_commitList_notMem (pending : List (Key × DBValue)) (db : DB) (k : Key)
    (h : ∀ p ∈ pending, p.1 ≠ k) : dbGet (commitList db pending) k = dbGet db k := by
  rw [dbGet_commitList, lastWrite_eq_none pending k h]

/-! ## Key-structure lemmas -/

theorem pow256_8 : (256 : Nat) ^ 8 = 2 ^ 64 := by norm_num

theorem pow256_20 : (256 : Nat) ^ 20 = 2 ^ 160 := by
  rw [show (256 : Nat) = 2 ^ 8 by norm_num, ← pow_mul]

theorem pow256_4 : (256 : Nat) ^ 4 = 2 ^ 32 := by norm_num

theorem eventKey_decomp (c a b l : Nat) :
    eventKey c a b l = eventPre c a ++ (beBytes 8 b ++ beBytes 4 l) := by
  simp [eventKey, eventPre, List.append_assoc]

theorem length_eventPre (c a : Nat) : (eventPre c a).length = 32 := by
  simp [eventPre, eventKeyPreB, length_beBytes]

theorem eventPre_inj {c a c' a' : Nat} (hc : c < 2 ^ 64) (ha : a < 2 ^ 160)
    (hc' : c' < 2 ^ 64) (ha' : a' < 2 ^ 160) :
    eventPre c a = eventPre c' a' ↔ c = c' ∧ a = a' := by
  constructor
  · intro h
    simp only [eventPre, List.append_assoc, List.append_cancel_left_eq] at h
    have := List.append_inj h (by rw [length_beBytes, length_beBytes])
    exact ⟨beBytes_inj (pow256_8 ▸ hc) (pow256_8 ▸ hc') this.1,
      beBytes_inj (pow256_20 ▸ ha) (pow256_20 ▸ ha') this.2⟩
  · rintro ⟨h1, h2⟩
    rw [h1, h2]

theorem isLeading_eventPre_eventKey {c a c' a' : Nat} (b l : Nat)
    (hc : c < 2 ^ 64) (ha : a < 2 ^ 160) (hc' : c' < 2 ^ 64) (ha' : a' < 2 ^ 160) :
    (isLeading (eventPre c a) (eventKey c' a' b l) = true ↔ (c = c' ∧ a = a')) := by
  rw [eventKey_decomp,
    isLeading_sameLength _ _ _ (by rw [length_eventPre, length_eventPre]),
    eventPre_inj hc ha hc' ha']

theorem isLeading_evtPre_eventKey (c a b l : Nat) :
    isLeading eventKeyPreB (eventKey c a b l) = true := by
  rw [eventKey]
  simp only [List.append_assoc]
  exact isLeading_append _ _

theorem not_isLeading_eventPre_lastBlockKey (c a c' a' : Nat) :
    isLeading (eventPre c a) (lastBlockKey c' a') = false := by
  simp [eventPre, lastBlockKey, eventKeyPreB, lastBlockKeyPreB, isLeading]

theorem not_isLeading_eventPre_contractKey (c a c' a' : Nat) :
    isLeading (eventPre c a) (contractKey c' a') = false := by
  simp [eventPre, contractKey, eventKeyPreB, contractKeyPreB, isLeading]

theorem not_isLeading_evtPre_lastBlockKey (c' a' : Nat) :
    isLeading eventKeyPreB (lastBlockKey c' a') = false := by
  simp [lastBlockKey, eventKeyPreB, lastBlockKeyPreB, isLeading]

theorem not_isLeading_evtPre_contractKey (c' a' : Nat) :
    isLeading eventKeyPreB (contractKey c' a') = false := by
  simp [contractKey, eventKeyPreB, contractKeyPreB, isLeading]

theorem eventKey_ne_lastBlockKey (c a b l c' a' : Nat) :
    eventKey c a b l ≠ lastBlockKey c' a' := by
  intro h
  simp [eventKey, lastBlockKey, eventKeyPreB, lastBlockKeyPreB] at h

theorem eventKey_ne_contractKey (c a b l c' a' : Nat) :
    eventKey c a b l ≠ contractKey c' a' := by
  intro h
  simp [eventKey, contractKey, eventKeyPreB, contractKeyPreB] at h

theorem lastBlockKey_ne_contractKey (c a c' a' : Nat) :
    lastBlockKey c a ≠ contractKey c' a' := by
  intro h
  simp [lastBlockKey, contractKey, lastBlockKeyPreB, contractKeyPreB] at h

theorem lastBlockKey_inj {c a c' a' : Nat} (hc : c < 2 ^ 64) (ha : a < 2 ^ 160)
    (hc' : c' < 2 ^ 64) (ha' : a' < 2 ^ 160) :
    lastBlockKey c a = lastBlockKey c' a' ↔ c = c' ∧ a = a' := by
  constructor
  · intro h
    simp only [lastBlockKey, List.append_assoc, List.append_cancel_left_eq] at h
    have := List.append_inj h (by rw [length_beBytes, length_beBytes])
    exact ⟨beBytes_inj (pow256_8 ▸ hc) (pow256_8 ▸ hc') this.1,
      beBytes_inj (pow256_20 ▸ ha) (pow256_20 ▸ ha') this.2⟩
  · rintro ⟨h1, h2⟩
    rw [h1, h2]

theorem contractKey_inj {c a c' a' : Nat} (hc : c < 2 ^ 64) (ha : a < 2 ^ 160)
    (hc' : c' < 2 ^ 64) (ha' : a' < 2 ^ 160) :
    contractKey c a = contractKey c' a' ↔ c = c' ∧ a = a' := by
  constructor
  · intro h
    simp only [contractKey, List.append_assoc, List.append_cancel_left_eq] at h
    have := List.append_inj h (by rw [length_beBytes, length_beBytes])
    exact ⟨beBytes_inj (pow256_8 ▸ hc) (pow256_8 ▸ hc') this.1,
      beBytes_inj (pow256_20 ▸ ha) (pow256_20 ▸ ha') this.2⟩
  · rintro ⟨h1, h2⟩
    rw [h1, h2]

/-- Ordering of two event keys of the same target: byte-lexicographic key
order equals numeric ascending order of `(blockNumber, logIndex)`. -/
theorem eventKey_lt_iff (c a : Nat) {b1 l1 b2 l2 : Nat}
    (hb1 : b1 < 2 ^ 64) (hb2 : b2 < 2 ^ 64) (hl1 : l1 < 2 ^ 32) (hl2 : l2 < 2 ^ 32) :
    (lexLt (eventKey c a b1 l1) (eventKey c a b2 l2) = true ↔
      (b1 < b2 ∨ (b1 = b2 ∧ l1 < l2))) := by
  rw [eventKey_decomp, eventKey_decomp, lexLt_append_left,
    lexLt_append_block _ _ _ _ (by rw [length_beBytes, length_beBytes])]
  by_cases hb : b1 = b2
  · subst hb
    simp [beBytes_lt_iff 4 l1 l2 (pow256_4 ▸ hl1) (pow256_4 ▸ hl2)]
  · have hne : beBytes 8 b1 ≠ beBytes 8 b2 :=
      fun he => hb (beBytes_inj (pow256_8 ▸ hb1) (pow256_8 ▸ hb2) he)
    rw [if_neg hne, beBytes_lt_iff 8 b1 b2 (pow256_8 ▸ hb1) (pow256_8 ▸ hb2)]
    constructor
    · exact Or.inl
    · rintro (h | ⟨h, _⟩)
      · exact h
      · exact absurd h hb

/-! ## Store invariant and reachable databases -/

/-- The bounds the Go types put on an event row's numeric fields: `chainID`
and `blockNumber` are uint64, `logIndex` is uint32. -/
def EventWF (e : Event) : Prop :=
  e.chainID < 2 ^ 64 ∧ e.blockNumber < 2 ^ 64 ∧ e.logIndex < 2 ^ 32

/-- Shape of a well-formed database entry: an event row lives at its own
event key, a checkpoint at some target's `lastBlockKey`, a registration at
some target's `contractKey`. -/
def EntryWF : Key × DBValue → Prop
  | (k, .ev e) =>
    EventWF e ∧ k = eventKey e.chainID (hexToAddress e.contract) e.blockNumber e.logIndex
  | (k, .u64 _) => ∃ c a, c < 2 ^ 64 ∧ a < 2 ^ 160 ∧ k = lastBlockKey c a
  | (k, .reg _) => ∃ c a, c < 2 ^ 64 ∧ a < 2 ^ 160 ∧ k = contractKey c a

/-- The store invariant: the database is strictly key-sorted and every entry
is well-formed. -/
def StoreInv (db : DB) : Prop := sortedDB db ∧ ∀ p ∈ db, EntryWF p

/-- Databases the store can produce: the empty database, extended by
`SaveEvents` and `SaveContract` calls whose arguments satisfy the bounds the
Go types give them (uint64 chain ids and checkpoints, 20-byte addresses). -/
inductive Reachable : DB → Prop where
  | empty : Reachable []
  | saveEvents {db : DB} {c a cp : Nat} {evs : List Event}
      (hr : Reachable db) (hc : c < 2 ^ 64) (ha : a < 2 ^ 160)
      (hevs : ∀ e ∈ evs, EventWF e) :
      Reachable (SaveEvents db c a evs cp).2
  | saveContract {db : DB} {c a sb : Nat}
      (hr : Reachable db) (hc : c < 2 ^ 64) (ha : a < 2 ^ 160) :
      Reachable (SaveContract db c a sb).2

theorem buildPending_mem :
    ∀ (evs : List Event) (acc pend : List (Key × DBValue)),
      buildPending evs acc = .ok pend →
        ∀ p ∈ pend, p ∈ acc ∨ ∃ e ∈ evs,
          p = (eventKey e.chainID (hexToAddress e.contract) e.blockNumber e.logIndex, .ev e)
  | [], acc, pend, h, p, hp => by
    simp only [buildPending, Except.ok.injEq] at h
    subst h
    exact Or.inl hp
  | e :: rest, acc, pend, h, p, hp => by
    simp only [buildPending] at h
    split at h
    · exact absurd h (by simp)
    · split at h
      · exact absurd h (by simp)
      · rcases buildPending_mem rest _ pend h p hp with h1 | ⟨e', he', hpe⟩
        · rcases List.mem_append.mp h1 with h2 | h2
          · exact Or.inl h2
          · refine Or.inr ⟨e, List.mem_cons_self _ _, ?_⟩
            simpa using h2
        · exact Or.inr ⟨e', List.mem_cons_of_mem _ he', hpe⟩

theorem storeInv_saveEvents (db : DB) (c a : Nat) (evs : List Event) (cp : Nat)
    (hc : c < 2 ^ 64) (ha : a < 2 ^ 160) (hevs : ∀ e ∈ evs, EventWF e)
    (hinv : StoreInv db) : StoreInv (SaveEvents db c a evs cp).2 := by
  rw [SaveEvents]
  split
  · exact hinv
  · split
    · exact hinv
    · rcases hbp : buildPending evs [] with m | pend
      · simpa [hbp] using hinv
      · simp only [hbp]
        constructor
        · exact sorted_commitList _ db hinv.1
        · intro p hp
          rcases mem_commitList _ db p hp with h1 | h1
          · exact hinv.2 p h1
          · rcases List.mem_append.mp h1 with h2 | h2
            · rcases buildPending_mem evs [] pend hbp p h2 with h3 | ⟨e, he, hpe⟩
              · simp at h3
              · subst hpe
                exact ⟨hevs e he, rfl⟩
            · simp only [List.mem_singleton] at h2
              subst h2
              exact ⟨c, a, hc, ha, rfl⟩

theorem storeInv_saveContract (db : DB) (c a sb : Nat)
    (hc : c < 2 ^ 64) (ha : a < 2 ^ 160) (hinv : StoreInv db) :
    StoreInv (SaveContract db c a sb).2 := by
  rw [SaveContract]
  split
  · exact hinv
  · split
    · exact hinv
    · split
      · exact hinv
      · constructor
        · exact sorted_commitList _ db hinv.1
        · intro p hp
          rcases mem_commitList _ db p hp with h1 | h1
          · exact hinv.2 p h1
          · simp only [List.mem_singleton] at h1
            subst h1
            exact ⟨c, a, hc, ha, rfl⟩

theorem storeInv_reachable {db : DB} (h : Reachable db) : StoreInv db := by
  induction h with
  | empty => exact ⟨List.Pairwise.nil, by intro p hp; simp at hp⟩
  | saveEvents hr hc ha hevs ih => exact storeInv_saveEvents _ _ _ _ _ hc ha hevs ih
  | saveContract hr hc ha ih => exact storeInv_saveContract _ _ _ _ hc ha ih

/-! ## Scan characterisation -/

/-- The events of one target as they sit in the database, in key order. -/
def targetEvents (db : DB) (c a : Nat) : List Event :=
  db.filterMap fun p =>
    match p.2 with
    | .ev e => if e.chainID = c ∧ hexToAddress e.contract = a then some e else none
    | _ => none

/-- All event rows of the database, in global key order. -/
def allEvents (db : DB) : List Event :=
  db.filterMap fun p =>
    match p.2 with
    | .ev e => some e
    | _ => none

/-- Chronological order on events: ascending `(blockNumber, logIndex)`. -/
def evLt (x y : Event) : Prop :=
  x.blockNumber < y.blockNumber ∨ (x.blockNumber = y.blockNumber ∧ x.logIndex < y.logIndex)

theorem filter_map_eq_filterMap_map :
    ∀ (l : List (Key × DBValue)) (q : Key × DBValue → Bool) (f : Key × DBValue → Option Event),
      (∀ p ∈ l, (q p = true ↔ ∃ e, f p = some e)) →
      (∀ p ∈ l, ∀ e, f p = some e → p.2 = .ev e) →
      (l.filter q).map Prod.snd = (l.filterMap f).map DBValue.ev
  | [], _, _, _, _ => rfl
  | p :: l, q, f, hq, hf => by
    have ih := filter_map_eq_filterMap_map l q f
      (fun r hr => hq r (List.mem_cons_of_mem _ hr))
      (fun r hr => hf r (List.mem_cons_of_mem _ hr))
    simp only [List.filter_cons, List.filterMap_cons]
    cases hqp : q p with
    | true =>
      rcases (hq p (List.mem_cons_self _ _)).mp hqp with ⟨e, he⟩
      have hp2 := hf p (List.mem_cons_self _ _) e he
      simp [hqp, he, ih, hp2]
    | false =>
      cases hfp : f p with
      | none => simpa using ih
      | some e =>
        have : q p = true := (hq p (List.mem_cons_self _ _)).mpr ⟨e, hfp⟩
        rw [hqp] at this
        exact absurd this (by simp)

/-- Classification of a well-formed entry against a target's scan range:
its key starts with `eventPre c a` exactly when it is an event row of the
target `(c, a)`. -/
theorem entry_leading_eventPre {p : Key × DBValue} (hwf : EntryWF p)
    {c a : Nat} (hc : c < 2 ^ 64) (ha : a < 2 ^ 160) :
    (isLeading (eventPre c a) p.1 = true ↔
      ∃ e, p.2 = .ev e ∧ e.chainID = c ∧ hexToAddress e.contract = a) := by
  obtain ⟨k, v⟩ := p
  cases v with
  | ev e =>
    rcases hwf with ⟨hew, hk⟩
    subst hk
    rw [isLeading_eventPre_eventKey _ _ hc ha hew.1 (hexToAddress_lt _)]
    constructor
    · rintro ⟨h1, h2⟩
      exact ⟨e, rfl, h1.symm, h2.symm⟩
    · rintro ⟨e', he', h1, h2⟩
      injection he' with hee
      subst hee
      exact ⟨h1.symm, h2.symm⟩
  | u64 n =>
    rcases hwf with ⟨c', a', _, _, hk⟩
    subst hk
    simp [not_isLeading_eventPre_lastBlockKey]
  | reg r =>
    rcases hwf with ⟨c', a', _, _, hk⟩
    subst hk
    simp [not_isLeading_eventPre_contractKey]

/-- Classification of a well-formed entry against the global `"evt:"` scan
range: its key starts with `"evt:"` exactly when it is an event row. -/
theorem entry_leading_global {p : Key × DBValue} (hwf : EntryWF p) :
    (isLeading eventKeyPreB p.1 = true ↔ ∃ e, p.2 = .ev e) := by
  obtain ⟨k, v⟩ := p
  cases v with
  | ev e =>
    rcases hwf with ⟨hew, hk⟩
    subst hk
    simp [isLeading_evtPre_eventKey]
  | u64 n =>
    rcases hwf with ⟨c', a', _, _, hk⟩
    subst hk
    simp [not_isLeading_evtPre_lastBlockKey]
  | reg r =>
    rcases hwf with ⟨c', a', _, _, hk⟩
    subst hk
    simp [not_isLeading_evtPre_contractKey]

/-- The target-scoped prefix scan visits exactly the marshalled event rows of
that target, in database order. -/
theorem iterVals_eventPre_eq (db : DB) {c a : Nat} (hc : c < 2 ^ 64) (ha : a < 2 ^ 160)
    (hwf : ∀ p ∈ db, EntryWF p) :
    dbIterVals db (eventPre c a) = (targetEvents db c a).map DBValue.ev := by
  apply filter_map_eq_filterMap_map
  · intro p hp
    rw [entry_leading_eventPre (hwf p hp) hc ha]
    obtain ⟨k, v⟩ := p
    cases v with
    | ev e =>
      constructor
      · rintro ⟨e', he', h1, h2⟩
        injection he' with hee
        subst hee
        exact ⟨e, by simp [h1, h2]⟩
      · rintro ⟨e', he'⟩
        simp only at he'
        split at he'
        · rename_i hcond
          injection he' with hee
          subst hee
          exact ⟨e, rfl, hcond.1, hcond.2⟩
        · exact absurd he' (by simp)
    | u64 n => simp
    | reg r => simp
  · intro p hp e hf
    obtain ⟨k, v⟩ := p
    cases v with
    | ev e' =>
      simp only at hf ⊢
      split at hf
      · injection hf with hee
        subst hee
        rfl
      · exact absurd hf (by simp)
    | u64 n => exact absurd hf (by simp)
    | reg r => exact absurd hf (by simp)

/-- The global `"evt:"` prefix scan visits exactly the marshalled event rows,
in database order. -/
theorem iterVals_global_eq (db : DB) (hwf : ∀ p ∈ db, EntryWF p) :
    dbIterVals db eventKeyPreB = (allEvents db).map DBValue.ev := by
  apply filter_map_eq_filterMap_map
  · intro p hp
    rw [entry_leading_global (hwf p hp)]
    obtain ⟨k, v⟩ := p
    cases v with
    | ev e => simp
    | u64 n => simp
    | reg r => simp
  · intro p hp e hf
    obtain ⟨k, v⟩ := p
    cases v with
    | ev e' =>
      simp only at hf
      injection hf with hee
      subst hee
      rfl
    | u64 n => exact absurd hf (by simp)
    | reg r => exact absurd hf (by simp)

/-- Membership in a target's event list: exactly the event rows of the
database whose identity names that target. -/
theorem mem_targetEvents {db : DB} {c a : Nat} (e : Event) :
    e ∈ targetEvents db c a ↔
      (∃ k, (k, DBValue.ev e) ∈ db) ∧ e.chainID = c ∧ hexToAddress e.contract = a := by
  rw [targetEvents, List.mem_filterMap]
  constructor
  · rintro ⟨p, hp, hfp⟩
    obtain ⟨k, v⟩ := p
    cases v with
    | ev e' =>
      simp only at hfp
      split at hfp
      · rename_i hcond
        injection hfp with hee
        subst hee
        exact ⟨⟨k, hp⟩, hcond.1, hcond.2⟩
      · exact absurd hfp (by simp)
    | u64 n => exact absurd hfp (by simp)
    | reg r => exact absurd hfp (by simp)
  · rintro ⟨⟨k, hk⟩, h1, h2⟩
    exact ⟨(k, .ev e), hk, by simp [h1, h2]⟩

/-- The scan of one target returns its events in strictly ascending
`(blockNumber, logIndex)` order. -/
theorem targetEvents_pairwise (db : DB) {c a : Nat} (hc : c < 2 ^ 64) (ha : a < 2 ^ 160)
    (hinv : StoreInv db) : (targetEvents db c a).Pairwise evLt := by
  have hstrong : db.Pairwise
      (fun p q => lexLt p.1 q.1 = true ∧ EntryWF p ∧ EntryWF q) :=
    List.Pairwise.imp_of_mem
      (fun hp hq hr => ⟨hr, hinv.2 _ hp, hinv.2 _ hq⟩) hinv.1
  refine List.Pairwise.filterMap _ ?_ hstrong
  rintro p q ⟨hlt, hwp, hwq⟩ x hx y hy
  obtain ⟨kp, vp⟩ := p
  obtain ⟨kq, vq⟩ := q
  cases vp with
  | ev e =>
    cases vq with
    | ev e' =>
      simp only at hx hy
      split at hx
      · rename_i hcx
        injection hx with hex
        subst hex
        split at hy
        · rename_i hcy
          injection hy with hey
          subst hey
          rcases hwp with ⟨hewx, hkx⟩
          rcases hwq with ⟨hewy, hky⟩
          subst hkx
          subst hky
          dsimp only at hlt
          rw [hcx.1, hcx.2, hcy.1, hcy.2] at hlt
          exact (eventKey_lt_iff c a hewx.2.1 hewy.2.1 hewx.2.2 hewy.2.2).mp hlt
        · exact absurd hy (by simp)
      · exact absurd hx (by simp)
    | u64 n => exact absurd hy (by simp)
    | reg r => exact absurd hy (by simp)
  | u64 n => exact absurd hx (by simp)
  | reg r => exact absurd hx (by simp)

/-! ## Pagination loop lemmas -/

theorem ascLoop_unbounded (s : Nat) :
    ∀ (evs : List Event) (k : Nat) (results : List Event), k ≤ s →
      ascLoop (s : Int) 0 (evs.map DBValue.ev) (k : Int) results =
        .ok (results ++ evs.drop (s - k))
  | [], k, results, _ => by simp [ascLoop]
  | e :: evs, k, results, hk => by
    simp only [List.map_cons, ascLoop]
    by_cases hks : k < s
    · rw [if_pos (by exact_mod_cast hks)]
      have hcast : ((k : Int) + 1) = ((k + 1 : Nat) : Int) := by push_cast; ring
      rw [hcast, ascLoop_unbounded s evs (k + 1) results (by omega)]
      have hdrop : s - k = (s - (k + 1)) + 1 := by omega
      rw [hdrop, List.drop_succ_cons]
    · have hk' : k = s := by omega
      subst hk'
      rw [if_neg (by simp)]
      rw [if_neg (by simp)]
      rw [ascLoop_unbounded _ evs _ (results ++ [e]) le_rfl]
      simp

theorem ascLoop_bounded (s f : Nat) (hf : 0 < f) :
    ∀ (evs : List Event) (k : Nat) (results : List Event), k ≤ s →
      ascLoop (s : Int) (f : Int) (evs.map DBValue.ev) (k : Int) results =
        .ok (results ++ (evs.drop (s - k)).take (f - results.length))
  | [], k, results, _ => by simp [ascLoop]
  | e :: evs, k, results, hk => by
    simp only [List.map_cons, ascLoop]
    by_cases hks : k < s
    · rw [if_pos (by exact_mod_cast hks)]
      have hcast : ((k : Int) + 1) = ((k + 1 : Nat) : Int) := by push_cast; ring
      rw [hcast, ascLoop_bounded s f hf evs (k + 1) results (by omega)]
      have hdrop : s - k = (s - (k + 1)) + 1 := by omega
      rw [hdrop, List.drop_succ_cons]
    · have hk' : k = s := by omega
      subst hk'
      rw [if_neg (by simp)]
      by_cases hstop : f ≤ results.length
      · rw [if_pos ⟨by exact_mod_cast hf, by exact_mod_cast hstop⟩]
        rw [Nat.sub_eq_zero_of_le hstop]
        simp
      · rw [if_neg (by
          rintro ⟨_, hle⟩
          exact hstop (by exact_mod_cast hle))]
        rw [ascLoop_bounded _ f hf evs _ (results ++ [e]) le_rfl]
        have harith : f - results.length = (f - (results.length + 1)) + 1 := by omega
        simp only [Nat.sub_self, List.drop_zero, List.length_append, List.length_singleton]
        rw [harith, List.take_succ_cons]
        simp

/-- The ascending scan depends on its options only through `skip` and
`first`. -/
theorem listEventsAsc_opts_congr (db : DB) (o1 o2 : ListOptions) (pre : Key)
    (h1 : o1.skip = o2.skip) (h2 : o1.first = o2.first) :
    listEventsAsc db o1 pre = listEventsAsc db o2 pre := by
  rw [listEventsAsc, listEventsAsc, h1, h2]

/-- The ascending scan over a range that holds exactly the marshalled events
`evs`, with Go-int pagination arguments `(s, f)`: drop `s`, then take `f`
when `f > 0`, everything otherwise. -/
theorem listEventsAsc_eq (db : DB) (opts : ListOptions) (pre : Key) (evs : List Event)
    (hvals : dbIterVals db pre = evs.map DBValue.ev) (s f : Nat)
    (hs : opts.skip = (s : Int)) (hf : opts.first = (f : Int)) :
    listEventsAsc db opts pre =
      .ok (if f = 0 then evs.drop s else (evs.drop s).take f) := by
  rw [listEventsAsc, hvals, hs, hf]
  by_cases hf0 : f = 0
  · subst hf0
    rw [if_pos rfl]
    have := ascLoop_unbounded s evs 0 [] (Nat.zero_le _)
    simpa using this
  · rw [if_neg hf0]
    have := ascLoop_bounded s f (Nat.pos_of_ne_zero hf0) evs 0 [] (Nat.zero_le _)
    simpa using this

theorem descCollect_map : ∀ (evs : List Event), descCollect (evs.map DBValue.ev) = .ok evs
  | [] => rfl
  | e :: evs => by
    simp only [List.map_cons, descCollect, descCollect_map evs]

theorem descWindow_zero (all : List Event) : descWindow all 0 0 = all := by
  rw [descWindow]
  rw [if_neg (by simp)]
  simp

/-! ## `ListEvents` dispatch -/

theorem ListEvents_asc_scoped (db : DB) {c a : Nat} (hc : c ≠ 0) (ha : a ≠ 0) (f s : Int)
    (hf : ¬ f < 0) (hs : ¬ s < 0) :
    ListEvents db
      { first := f, skip := s, orderBy := blockNumberLit, orderDirection := ascLit,
        chainID := c, contract := a } =
      listEventsAsc db
        { first := f, skip := s, orderBy := blockNumberLit, orderDirection := ascLit,
          chainID := c, contract := a } (eventPre c a) := by
  rw [ListEvents]
  dsimp only
  rw [if_neg (show ¬ (f < 0 ∨ s < 0) by omega)]
  simp [hc, ha, blockNumberLit, ascLit, descLit]

theorem ListEvents_desc_scoped (db : DB) {c a : Nat} (hc : c ≠ 0) (ha : a ≠ 0) (f s : Int)
    (hf : ¬ f < 0) (hs : ¬ s < 0) :
    ListEvents db
      { first := f, skip := s, orderBy := blockNumberLit, orderDirection := descLit,
        chainID := c, contract := a } =
      listEventsDesc db
        { first := f, skip := s, orderBy := blockNumberLit, orderDirection := descLit,
          chainID := c, contract := a } (eventPre c a) := by
  rw [ListEvents]
  dsimp only
  rw [if_neg (show ¬ (f < 0 ∨ s < 0) by omega)]
  simp [hc, ha, blockNumberLit, ascLit, descLit]

theorem buildPending_ok_eq :
    ∀ (evs : List Event) (acc pend : List (Key × DBValue)),
      buildPending evs acc = .ok pend →
        pend = acc ++ evs.map (fun e =>
          (eventKey e.chainID (hexToAddress e.contract) e.blockNumber e.logIndex, DBValue.ev e))
  | [], acc, pend, h => by
    simp only [buildPending, Except.ok.injEq] at h
    simp [h.symm]
  | e :: rest, acc, pend, h => by
    simp only [buildPending] at h
    split at h
    · exact absurd h (by simp)
    · split at h
      · exact absurd h (by simp)
      · rw [buildPending_ok_eq rest _ pend h]
        simp

/-- Structure of a successful `SaveEvents`: the target validated, every event
validated, and the committed database is the input database plus one write
per event (in batch order) followed by the checkpoint write. -/
theorem saveEvents_ok_eq {db : DB} {c a : Nat} {evs : List Event} {cp : Nat}
    (h : (SaveEvents db c a evs cp).1 = .ok ()) :
    c ≠ 0 ∧ a ≠ 0 ∧
      (SaveEvents db c a evs cp).2 =
        commitList db
          ((evs.map fun e =>
            (eventKey e.chainID (hexToAddress e.contract) e.blockNumber e.logIndex,
              DBValue.ev e)) ++
            [(lastBlockKey c a, encodeUint64 cp)]) := by
  rw [SaveEvents] at h ⊢
  by_cases hc : c = 0
  · rw [if_pos hc] at h
    exact absurd h (by simp)
  · rw [if_neg hc] at h ⊢
    by_cases ha : a = 0
    · rw [if_pos ha] at h
      exact absurd h (by simp)
    · rw [if_neg ha] at h ⊢
      refine ⟨hc, ha, ?_⟩
      rcases hbp : buildPending evs [] with m' | pend
      · rw [hbp] at h
        exact absurd h (by simp)
      · have hpend := buildPending_ok_eq evs [] pend hbp
        simp only [List.nil_append] at hpend
        subst hpend
        rfl

/-- On every error path `SaveEvents` leaves the database untouched (the
transaction is discarded). -/
theorem saveEvents_error_eq {db : DB} {c a : Nat} {evs : List Event} {cp : Nat} (m : String)
    (h : (SaveEvents db c a evs cp).1 = .error m) : (SaveEvents db c a evs cp).2 = db := by
  rw [SaveEvents] at h ⊢
  by_cases hc : c = 0
  · rw [if_pos hc]
  · rw [if_neg hc] at h ⊢
    by_cases ha : a = 0
    · rw [if_pos ha]
    · rw [if_neg ha] at h ⊢
      rcases hbp : buildPending evs [] with m' | pend
      · rfl
      · rw [hbp] at h
        exact absurd h (by simp)

theorem ListEvents_asc_global (db : DB) (f s : Int) (hf : ¬ f < 0) (hs : ¬ s < 0) :
    ListEvents db
      { first := f, skip := s, orderBy := blockNumberLit, orderDirection := ascLit,
        chainID := 0, contract := 0 } =
      listEventsAsc db
        { first := f, skip := s, orderBy := blockNumberLit, orderDirection := ascLit,
          chainID := 0, contract := 0 } eventKeyPreB := by
  rw [ListEvents]
  dsimp only
  rw [if_neg (show ¬ (f < 0 ∨ s < 0) by omega)]
  simp [blockNumberLit, ascLit, descLit]

theorem blockNumberLit_ne_nil : blockNumberLit ≠ [] := by decide

theorem ascLit_ne_nil : ascLit ≠ [] := by decide

theorem ascLit_ne_descLit : ascLit ≠ descLit := by decide

theorem mem_allEvents {db : DB} (e : Event) :
    e ∈ allEvents db ↔ ∃ k, (k, DBValue.ev e) ∈ db := by
  rw [allEvents, List.mem_filterMap]
  constructor
  · rintro ⟨p, hp, hfp⟩
    obtain ⟨k, v⟩ := p
    cases v with
    | ev e' =>
      simp only at hfp
      injection hfp with hee
      subst hee
      exact ⟨k, hp⟩
    | u64 n => exact absurd hfp (by simp)
    | reg r => exact absurd hfp (by simp)
  · rintro ⟨k, hk⟩
    exact ⟨(k, .ev e), hk, rfl⟩

/-- Full injectivity of the event key for in-range fields. -/
theorem eventKey_inj {c a b l c' a' b' l' : Nat}
    (hc : c < 2 ^ 64) (ha : a < 2 ^ 160) (hb : b < 2 ^ 64) (hl : l < 2 ^ 32)
    (hc' : c' < 2 ^ 64) (ha' : a' < 2 ^ 160) (hb' : b' < 2 ^ 64) (hl' : l' < 2 ^ 32) :
    eventKey c a b l = eventKey c' a' b' l' ↔ (c = c' ∧ a = a' ∧ b = b' ∧ l = l') := by
  constructor
  · intro h
    simp only [eventKey, List.append_assoc, List.append_cancel_left_eq] at h
    have h1 := List.append_inj h (by rw [length_beBytes, length_beBytes])
    have h2 := List.append_inj h1.2 (by rw [length_beBytes, length_beBytes])
    have h3 := List.append_inj h2.2 (by rw [length_beBytes, length_beBytes])
    exact ⟨beBytes_inj (pow256_8 ▸ hc) (pow256_8 ▸ hc') h1.1,
      beBytes_inj (pow256_20 ▸ ha) (pow256_20 ▸ ha') h2.1,
      beBytes_inj (pow256_8 ▸ hb) (pow256_8 ▸ hb') h3.1,
      beBytes_inj (pow256_4 ▸ hl) (pow256_4 ▸ hl') h3.2⟩
  · rintro ⟨h1, h2, h3, h4⟩
    rw [h1, h2, h3, h4]

/-! ## Example data for concrete witnesses -/

def exEvent1 : Event :=
  { chainID := 1, contract := addrHex 1, account := addrHex 2,
    previousWeight := ['1'], newWeight := ['2'], blockNumber := 1, logIndex := 0 }

def exEvent2 : Event :=
  { chainID := 1, contract := addrHex 1, account := addrHex 3,
    previousWeight := ['2'], newWeight := ['3'], blockNumber := 2, logIndex := 0 }

def exDB : DB := (SaveEvents [] 1 1 [exEvent1, exEvent2] 2).2

theorem exDB_reachable : Reachable exDB :=
  Reachable.saveEvents Reachable.empty (by norm_num) (by norm_num)
    (by
      intro e he
      fin_cases he <;> exact ⟨by norm_num [exEvent1, exEvent2],
        by norm_num [exEvent1, exEvent2], by norm_num [exEvent1, exEvent2]⟩)

/-- Pagination and ordering options scoping the scan to a target, ascending. -/
def ascOpts (f s : Int) (c a : Nat) : ListOptions :=
  { first := f, skip := s, orderBy := blockNumberLit, orderDirection := ascLit,
    chainID := c, contract := a }

/-- Same as `ascOpts` with descending direction. -/
def descOpts (f s : Int) (c a : Nat) : ListOptions :=
  { first := f, skip := s, orderBy := blockNumberLit, orderDirection := descLit,
    chainID := c, contract := a }

/-! ## Claim theorems -/

/-- C1: for every target and every set of committed events, `ListEvents` with
ascending direction, `skip = 0` and unbounded `first` returns exactly the
target's committed events (membership characterisation) sorted strictly by
`(blockNumber, logIndex)` ascending, and the descending variant returns the
exact reverse; and for two events of the same target, byte-wise lexicographic
order of their fixed-width big-endian keys equals numeric ascending order of
`(blockNumber, logIndex)`. -/
theorem listEvents_ordering_invariant (db : DB) (hr : Reachable db) {c a : Nat}
    (hc0 : c ≠ 0) (ha0 : a ≠ 0) (hc : c < 2 ^ 64) (ha : a < 2 ^ 160) :
    ListEvents db (ascOpts 0 0 c a) = .ok (targetEvents db c a) ∧
    (∀ e : Event, e ∈ targetEvents db c a ↔
      (∃ k, (k, DBValue.ev e) ∈ db) ∧ e.chainID = c ∧ hexToAddress e.contract = a) ∧
    (targetEvents db c a).Pairwise evLt ∧
    ListEvents db (descOpts 0 0 c a) = .ok (targetEvents db c a).reverse ∧
    (∀ b1 l1 b2 l2 : Nat, b1 < 2 ^ 64 → b2 < 2 ^ 64 → l1 < 2 ^ 32 → l2 < 2 ^ 32 →
      (lexLt (eventKey c a b1 l1) (eventKey c a b2 l2) = true ↔
        (b1 < b2 ∨ (b1 = b2 ∧ l1 < l2)))) := by
  have hinv := storeInv_reachable hr
  have hvals := iterVals_eventPre_eq db hc ha hinv.2
  refine ⟨?_, fun e => mem_targetEvents e, targetEvents_pairwise db hc ha hinv, ?_, ?_⟩
  · rw [ascOpts, ListEvents_asc_scoped db hc0 ha0 0 0 (by omega) (by omega)]
    rw [listEventsAsc_eq db _ _ _ hvals 0 0 (by norm_num) (by norm_num)]
    simp
  · rw [descOpts, ListEvents_desc_scoped db hc0 ha0 0 0 (by omega) (by omega)]
    rw [listEventsDesc]
    rw [hvals, descCollect_map]
    simp [descWindow_zero]
  · intro b1 l1 b2 l2 hb1 hb2 hl1 hl2
    exact eventKey_lt_iff c a hb1 hb2 hl1 hl2

theorem listEvents_ordering_invariant_witness :
    Reachable exDB ∧
    ListEvents exDB (ascOpts 0 0 1 1) = .ok (targetEvents exDB 1 1) ∧
    ListEvents exDB (descOpts 0 0 1 1) = .ok (targetEvents exDB 1 1).reverse :=
  ⟨exDB_reachable,
    (listEvents_ordering_invariant exDB exDB_reachable (by norm_num) (by norm_num)
      (by norm_num) (by norm_num)).1,
    (listEvents_ordering_invariant exDB exDB_reachable (by norm_num) (by norm_num)
      (by norm_num) (by norm_num)).2.2.2.1⟩

/-- C2: for every target, `skip ≥ 0` and `first ≥ 0`, the ascending
`ListEvents` returns exactly the elements at positions `[skip, skip+first)`
of the full ascending order of the target's committed events — all remaining
elements when `first = 0`, and the empty sequence when `skip` is at least the
count (the `drop` then yields `[]`). -/
theorem listEvents_pagination (db : DB) (hr : Reachable db) {c a : Nat}
    (hc0 : c ≠ 0) (ha0 : a ≠ 0) (hc : c < 2 ^ 64) (ha : a < 2 ^ 160) (s f : Nat) :
    ListEvents db (ascOpts (f : Int) (s : Int) c a) =
      .ok (if f = 0 then (targetEvents db c a).drop s
        else ((targetEvents db c a).drop s).take f) := by
  have hinv := storeInv_reachable hr
  have hvals := iterVals_eventPre_eq db hc ha hinv.2
  rw [ascOpts, ListEvents_asc_scoped db hc0 ha0 _ _ (by omega) (by omega)]
  exact listEventsAsc_eq db _ _ _ hvals s f rfl rfl

theorem listEvents_pagination_witness :
    Reachable exDB ∧
    ListEvents exDB (ascOpts ((1 : Nat) : Int) ((1 : Nat) : Int) 1 1) =
      .ok (((targetEvents exDB 1 1).drop 1).take 1) := by
  refine ⟨exDB_reachable, ?_⟩
  have h := listEvents_pagination exDB exDB_reachable (c := 1) (a := 1) (by norm_num)
    (by norm_num) (by norm_num) (by norm_num) 1 1
  simpa using h

/-- C10: when both `ChainID = 0` and the contract address is the zero
address, the scan is not scoped to any target and returns the event rows of
every target in global key order; when exactly one of them is set,
`ListEvents` returns the error `"both chainID and contract are required for
filtering"`. -/
theorem listEvents_target_filter_edge (db : DB) (hr : Reachable db) :
    ListEvents db (ascOpts 0 0 0 0) = .ok (allEvents db) ∧
    (∀ e : Event, e ∈ allEvents db ↔ ∃ k, (k, DBValue.ev e) ∈ db) ∧
    (∀ c : Nat, c ≠ 0 → ListEvents db (ascOpts 0 0 c 0) =
      .error "both chainID and contract are required for filtering") ∧
    (∀ a : Nat, a ≠ 0 → ListEvents db (ascOpts 0 0 0 a) =
      .error "both chainID and contract are required for filtering") := by
  have hinv := storeInv_reachable hr
  refine ⟨?_, fun e => mem_allEvents e, ?_, ?_⟩
  · rw [ascOpts, ListEvents_asc_global db 0 0 (by omega) (by omega)]
    rw [listEventsAsc_eq db _ _ _ (iterVals_global_eq db hinv.2) 0 0 (by norm_num) (by norm_num)]
    simp
  · intro c hc
    rw [ascOpts, ListEvents]
    dsimp only
    simp [hc, blockNumberLit, ascLit, descLit]
  · intro a ha
    rw [ascOpts, ListEvents]
    dsimp only
    simp [ha, blockNumberLit, ascLit, descLit]

theorem listEvents_target_filter_edge_witness :
    Reachable ([] : DB) ∧
    ListEvents ([] : DB) (ascOpts 0 0 0 0) = .ok (allEvents []) ∧
    ListEvents ([] : DB) (ascOpts 0 0 5 0) =
      .error "both chainID and contract are required for filtering" :=
  ⟨Reachable.empty, (listEvents_target_filter_edge [] Reachable.empty).1,
    (listEvents_target_filter_edge [] Reachable.empty).2.2.1 5 (by norm_num)⟩

/-- C7: partition isolation.  For any two distinct targets, the 32-byte event
prefix of one target never starts any event key of the other; checkpoint and
registration keys never fall inside any event prefix scan; and on every
reachable database, a `ListEvents` scan scoped to target B returns no event
whose identity names a different target A. -/
theorem partition_isolation :
    (∀ cA aA cB aB : Nat, cA < 2 ^ 64 → aA < 2 ^ 160 → cB < 2 ^ 64 → aB < 2 ^ 160 →
      (cA, aA) ≠ (cB, aB) → ∀ b l : Nat,
        isLeading (eventPre cB aB) (eventKey cA aA b l) = false) ∧
    (∀ c a : Nat, (eventPre c a).length = 32) ∧
    (∀ c a c' a' : Nat, isLeading (eventPre c a) (lastBlockKey c' a') = false ∧
      isLeading (eventPre c a) (contractKey c' a') = false) ∧
    (∀ (db : DB), Reachable db → ∀ cA aA cB aB : Nat, cA < 2 ^ 64 → aA < 2 ^ 160 →
      cB < 2 ^ 64 → aB < 2 ^ 160 → cB ≠ 0 → aB ≠ 0 → (cA, aA) ≠ (cB, aB) →
      ∀ res : List Event, ListEvents db (ascOpts 0 0 cB aB) = .ok res →
        ∀ e : Event, e.chainID = cA → hexToAddress e.contract = aA → e ∉ res) := by
  refine ⟨?_, length_eventPre, ?_, ?_⟩
  · intro cA aA cB aB hcA haA hcB haB hne b l
    cases hres : isLeading (eventPre cB aB) (eventKey cA aA b l) with
    | false => rfl
    | true =>
      rcases (isLeading_eventPre_eventKey b l hcB haB hcA haA).mp hres with ⟨h1, h2⟩
      exact absurd (by rw [h1, h2]) hne.symm
  · intro c a c' a'
    exact ⟨not_isLeading_eventPre_lastBlockKey c a c' a',
      not_isLeading_eventPre_contractKey c a c' a'⟩
  · intro db hr cA aA cB aB hcA haA hcB haB hcB0 haB0 hne res hres e hec hea hmem
    have hinv := storeInv_reachable hr
    have hvals := iterVals_eventPre_eq db hcB haB hinv.2
    rw [ascOpts, ListEvents_asc_scoped db hcB0 haB0 0 0 (by omega) (by omega),
      listEventsAsc_eq db _ _ _ hvals 0 0 (by norm_num) (by norm_num)] at hres
    simp only [if_pos rfl, List.drop_zero, Except.ok.injEq] at hres
    subst hres
    rcases (mem_targetEvents e).mp hmem with ⟨_, hB1, hB2⟩
    exact hne (by rw [← hec, ← hea, hB1, hB2])

/-- C9: registration idempotence.  With no record present, the first
`SaveContract` succeeds and persists `startBlock = sb1`; a second call with
any `sb2` returns success and leaves the database — in particular the
persisted record — exactly as the first call wrote it. -/
theorem saveContract_idempotent (db : DB) {c a : Nat} (sb1 sb2 : Nat)
    (hc : c ≠ 0) (ha : a ≠ 0) (hnone : dbGet db (contractKey c a) = none) :
    (SaveContract db c a sb1).1 = .ok () ∧
    dbGet (SaveContract db c a sb1).2 (contractKey c a) =
      some (.reg { chainID := c, contract := addrHex a, startBlock := sb1 }) ∧
    SaveContract (SaveContract db c a sb1).2 c a sb2 =
      (.ok (), (SaveContract db c a sb1).2) := by
  have h1 : SaveContract db c a sb1 =
      (.ok (), commitList db [(contractKey c a,
        .reg { chainID := c, contract := addrHex a, startBlock := sb1 })]) := by
    rw [SaveContract, if_neg hc, if_neg ha, hnone]
  have hget : dbGet (commitList db [(contractKey c a,
      .reg { chainID := c, contract := addrHex a, startBlock := sb1 })]) (contractKey c a) =
      some (.reg { chainID := c, contract := addrHex a, startBlock := sb1 }) := by
    simp only [commitList, List.foldl_cons, List.foldl_nil]
    exact dbGet_dbSet_self db _ _
  refine ⟨by rw [h1], by rw [h1]; exact hget, ?_⟩
  rw [h1]
  rw [SaveContract, if_neg hc, if_neg ha, hget]

theorem saveContract_idempotent_witness :
    dbGet ([] : DB) (contractKey 1 1) = none ∧
    (SaveContract ([] : DB) 1 1 10).1 = .ok () ∧
    dbGet (SaveContract ([] : DB) 1 1 10).2 (contractKey 1 1) =
      some (.reg { chainID := 1, contract := addrHex 1, startBlock := 10 }) ∧
    SaveContract (SaveContract ([] : DB) 1 1 10).2 1 1 99 =
      (.ok (), (SaveContract ([] : DB) 1 1 10).2) :=
  ⟨rfl,
    (saveContract_idempotent ([] : DB) (c := 1) (a := 1) 10 99
      (by norm_num) (by norm_num) rfl).1,
    (saveContract_idempotent ([] : DB) (c := 1) (a := 1) 10 99
      (by norm_num) (by norm_num) rfl).2.1,
    (saveContract_idempotent ([] : DB) (c := 1) (a := 1) 10 99
      (by norm_num) (by norm_num) rfl).2.2⟩

/-! ## C3 infrastructure: sequences of SaveEvents calls -/

/-- One `SaveEvents` call's arguments. -/
structure SaveCall where
  chainID : Nat
  contract : Nat
  events : List Event
  checkpoint : Nat

/-- Run a sequence of `SaveEvents` calls; `none` when any call fails. -/
def runCalls : DB → List SaveCall → Option DB
  | db, [] => some db
  | db, cl :: rest =>
    match SaveEvents db cl.chainID cl.contract cl.events cl.checkpoint with
    | (.ok _, db') => runCalls db' rest
    | (.error _, _) => none

/-- Bounds the Go types put on one call's arguments: uint64 chain id and
checkpoint, 20-byte contract address. -/
def CallWF (cl : SaveCall) : Prop :=
  cl.chainID < 2 ^ 64 ∧ cl.contract < 2 ^ 160 ∧ cl.checkpoint < 2 ^ 64

/-- The checkpoint passed to the last call of the sequence that names the
target `(c, a)`, if any. -/
def lastCheckpoint (c a : Nat) : List SaveCall → Option Nat
  | [] => none
  | cl :: rest =>
    match lastCheckpoint c a rest with
    | some cp => some cp
    | none => if cl.chainID = c ∧ cl.contract = a then some cl.checkpoint else none

/-- A successful `SaveEvents` sets exactly its own target's checkpoint row
and leaves every other target's checkpoint row untouched (event writes live
under the `"evt:"` prefix and never touch a `"meta:last_block:"` key). -/
theorem saveEvents_get_lastBlock {db : DB} {c' a' : Nat} {evs : List Event} {cp : Nat}
    (h : (SaveEvents db c' a' evs cp).1 = .ok ()) (c a : Nat) :
    dbGet (SaveEvents db c' a' evs cp).2 (lastBlockKey c a) =
      if lastBlockKey c' a' = lastBlockKey c a then some (.u64 cp)
      else dbGet db (lastBlockKey c a) := by
  obtain ⟨hc', ha', heq⟩ := saveEvents_ok_eq h
  rw [heq, dbGet_commitList]
  by_cases hk : lastBlockKey c' a' = lastBlockKey c a
  · rw [lastWrite_append_last _ _ _ hk, if_pos hk]
    rfl
  · have hlw : lastWrite (evs.map fun e =>
        (eventKey e.chainID (hexToAddress e.contract) e.blockNumber e.logIndex, DBValue.ev e))
        (lastBlockKey c a) = none := by
      apply lastWrite_eq_none
      intro p hp
      rcases List.mem_map.mp hp with ⟨e, _, hpe⟩
      subst hpe
      exact eventKey_ne_lastBlockKey _ _ _ _ _ _
    rw [lastWrite_append_last_ne _ _ _ hk, hlw, if_neg hk]

theorem runCalls_lastBlock :
    ∀ (calls : List SaveCall) (db0 db : DB), runCalls db0 calls = some db →
      (∀ cl ∈ calls, CallWF cl) → ∀ (c a : Nat), c < 2 ^ 64 → a < 2 ^ 160 →
      dbGet db (lastBlockKey c a) =
        match lastCheckpoint c a calls with
        | some cp => some (.u64 cp)
        | none => dbGet db0 (lastBlockKey c a)
  | [], db0, db, hrun, _, c, a, _, _ => by
    simp only [runCalls, Option.some.injEq] at hrun
    subst hrun
    rfl
  | cl :: rest, db0, db, hrun, hwf, c, a, hc, ha => by
    simp only [runCalls] at hrun
    rcases hsv : SaveEvents db0 cl.chainID cl.contract cl.events cl.checkpoint with ⟨res, db1⟩
    rw [hsv] at hrun
    cases res with
    | error m => exact absurd hrun (by simp)
    | ok u =>
      have ih := runCalls_lastBlock rest db1 db hrun
        (fun q hq => hwf q (List.mem_cons_of_mem _ hq)) c a hc ha
      rw [ih]
      cases hlast : lastCheckpoint c a rest with
      | some cp => simp [lastCheckpoint, hlast]
      | none =>
        have hok : (SaveEvents db0 cl.chainID cl.contract cl.events cl.checkpoint).1 = .ok () := by
          rw [hsv]
        have hget := saveEvents_get_lastBlock hok c a
        rw [hsv] at hget
        dsimp only at hget
        simp only [lastCheckpoint, hlast]
        rcases hwf cl (List.mem_cons_self _ _) with ⟨hcw, haw, _⟩
        by_cases hm : cl.chainID = c ∧ cl.contract = a
        · rw [hget, if_pos ((lastBlockKey_inj hcw haw hc ha).mpr hm), if_pos hm]
        · have hkne : lastBlockKey cl.chainID cl.contract ≠ lastBlockKey c a := by
            intro he
            exact hm ((lastBlockKey_inj hcw haw hc ha).mp he)
          rw [hget, if_neg hkne, if_neg hm]

/-- C3: checkpoint round trip.  For every target and every sequence of
successful `SaveEvents` calls starting from the empty store,
`LastIndexedBlock` after the last call returns exactly the checkpoint value of
the last call naming that target with `found = true` (batches may be empty),
and `(0, false)` for a target no call in the sequence named. -/
theorem checkpoint_roundtrip (calls : List SaveCall) (db : DB)
    (hrun : runCalls [] calls = some db) (hwf : ∀ cl ∈ calls, CallWF cl)
    (c a : Nat) (hc : c < 2 ^ 64) (ha : a < 2 ^ 160) :
    (∀ cp, lastCheckpoint c a calls = some cp → LastIndexedBlock db c a = .ok (cp, true)) ∧
    (lastCheckpoint c a calls = none → LastIndexedBlock db c a = .ok (0, false)) := by
  have hkey := runCalls_lastBlock calls [] db hrun hwf c a hc ha
  constructor
  · intro cp hcp
    rw [hcp] at hkey
    rw [LastIndexedBlock, hkey]
    rfl
  · intro hnone
    rw [hnone] at hkey
    rw [LastIndexedBlock, hkey]
    rfl

def exCall1 : SaveCall := { chainID := 1, contract := 1, events := [exEvent1], checkpoint := 5 }

/-- A call committing an empty batch, only advancing the checkpoint. -/
def exCall2 : SaveCall := { chainID := 1, contract := 1, events := [], checkpoint := 9 }

def exDB3 : DB := (SaveEvents (SaveEvents [] 1 1 [exEvent1] 5).2 1 1 [] 9).2

theorem checkpoint_roundtrip_witness :
    runCalls [] [exCall1, exCall2] = some exDB3 ∧
    lastCheckpoint 1 1 [exCall1, exCall2] = some 9 ∧
    LastIndexedBlock exDB3 1 1 = .ok (9, true) ∧
    lastCheckpoint 2 1 [exCall1, exCall2] = none ∧
    LastIndexedBlock exDB3 2 1 = .ok (0, false) := by
  have hwf : ∀ cl ∈ [exCall1, exCall2], CallWF cl := by
    intro cl hcl
    fin_cases hcl <;>
      exact ⟨by norm_num [exCall1, exCall2], by norm_num [exCall1, exCall2],
        by norm_num [exCall1, exCall2]⟩
  have hrun : runCalls [] [exCall1, exCall2] = some exDB3 := by rfl
  refine ⟨hrun, by rfl, ?_, by rfl, ?_⟩
  · exact (checkpoint_roundtrip [exCall1, exCall2] exDB3 hrun hwf 1 1
      (by norm_num) (by norm_num)).1 9 (by rfl)
  · exact (checkpoint_roundtrip [exCall1, exCall2] exDB3 hrun hwf 2 1
      (by norm_num) (by norm_num)).2 (by rfl)

/-! ## C4: atomicity of SaveEvents -/

theorem lastWrite_map_pairwise :
    ∀ (evs : List Event),
      evs.Pairwise (fun x y =>
        (x.chainID, hexToAddress x.contract, x.blockNumber, x.logIndex) ≠
          (y.chainID, hexToAddress y.contract, y.blockNumber, y.logIndex)) →
      (∀ e ∈ evs, EventWF e) →
      ∀ e ∈ evs,
        lastWrite (evs.map fun x =>
            (eventKey x.chainID (hexToAddress x.contract) x.blockNumber x.logIndex,
              DBValue.ev x))
          (eventKey e.chainID (hexToAddress e.contract) e.blockNumber e.logIndex) =
          some (.ev e)
  | x :: rest, hpw, hwfall, e, he => by
    rw [List.map_cons, lastWrite_cons]
    rcases List.mem_cons.mp he with he1 | he2
    · subst he1
      have hnone : lastWrite (rest.map fun y =>
          (eventKey y.chainID (hexToAddress y.contract) y.blockNumber y.logIndex,
            DBValue.ev y))
          (eventKey e.chainID (hexToAddress e.contract) e.blockNumber e.logIndex) = none := by
        apply lastWrite_eq_none
        intro p hp
        rcases List.mem_map.mp hp with ⟨y, hy, hpe⟩
        subst hpe
        intro hkeq
        have hwy := hwfall y (List.mem_cons_of_mem _ hy)
        have hwx := hwfall e (List.mem_cons_self _ _)
        have hids := (eventKey_inj hwy.1 (hexToAddress_lt _) hwy.2.1 hwy.2.2
          hwx.1 (hexToAddress_lt _) hwx.2.1 hwx.2.2).mp hkeq
        have hrel := (List.pairwise_cons.mp hpw).1 y hy
        exact hrel (by simp [hids.1, hids.2.1, hids.2.2.1, hids.2.2.2])
      rw [hnone]
      simp
    · have ih := lastWrite_map_pairwise rest (List.pairwise_cons.mp hpw).2
        (fun q hq => hwfall q (List.mem_cons_of_mem _ hq)) e he2
      rw [ih]

/-- C4 amended: `SaveEvents` is atomic and all-or-nothing.  On every error
(invalid target, invalid event) the database is returned unchanged; on
success, provided the batch's event identities are pairwise distinct, every
event row and the new checkpoint are persisted together in one commit. -/
theorem saveEvents_atomic (db : DB) (c a : Nat) (evs : List Event) (cp : Nat) :
    (∀ m, (SaveEvents db c a evs cp).1 = .error m → (SaveEvents db c a evs cp).2 = db) ∧
    ((SaveEvents db c a evs cp).1 = .ok () → (∀ e ∈ evs, EventWF e) →
      evs.Pairwise (fun x y =>
        (x.chainID, hexToAddress x.contract, x.blockNumber, x.logIndex) ≠
          (y.chainID, hexToAddress y.contract, y.blockNumber, y.logIndex)) →
      (∀ e ∈ evs, dbGet (SaveEvents db c a evs cp).2
          (eventKey e.chainID (hexToAddress e.contract) e.blockNumber e.logIndex) =
        some (.ev e)) ∧
      dbGet (SaveEvents db c a evs cp).2 (lastBlockKey c a) = some (.u64 cp)) := by
  constructor
  · intro m hm
    exact saveEvents_error_eq m hm
  · intro hok hwf hpw
    obtain ⟨hc0, ha0, heq⟩ := saveEvents_ok_eq hok
    constructor
    · intro e he
      rw [heq, dbGet_commitList]
      rw [lastWrite_append_last_ne _ _ _
        (Ne.symm (eventKey_ne_lastBlockKey _ _ _ _ _ _))]
      rw [lastWrite_map_pairwise evs hpw hwf e he]
    · rw [heq, dbGet_commitList, lastWrite_append_last _ _ _ rfl]
      rfl

theorem saveEvents_atomic_witness :
    (SaveEvents [] 1 1 [exEvent1, exEvent2] 7).1 = .ok () ∧
    dbGet (SaveEvents [] 1 1 [exEvent1, exEvent2] 7).2
      (eventKey exEvent1.chainID (hexToAddress exEvent1.contract)
        exEvent1.blockNumber exEvent1.logIndex) = some (.ev exEvent1) ∧
    dbGet (SaveEvents [] 1 1 [exEvent1, exEvent2] 7).2 (lastBlockKey 1 1) =
      some (.u64 7) := by
  have hwf : ∀ e ∈ [exEvent1, exEvent2], EventWF e := by
    intro e he
    fin_cases he <;>
      exact ⟨by norm_num [exEvent1, exEvent2], by norm_num [exEvent1, exEvent2],
        by norm_num [exEvent1, exEvent2]⟩
  have h := (saveEvents_atomic [] 1 1 [exEvent1, exEvent2] 7).2 (by rfl) hwf (by decide)
  exact ⟨by rfl, h.1 exEvent1 (by simp), h.2⟩

/-- The duplicate-identity event used by the C4 counterexample: same identity
as `exEvent1`, different payload. -/
def dupEvent : Event := { exEvent1 with account := addrHex 9 }

/-- C4 as stated is false for a batch holding two rows with the same identity
`(chainID, contract, blockNumber, logIndex)` and different payloads: the call
succeeds, yet the first row is not persisted — its key holds the second
row's payload. -/
theorem saveEvents_allornothing_counterexample :
    (SaveEvents [] 1 1 [exEvent1, dupEvent] 5).1 = .ok () ∧
    dupEvent ≠ exEvent1 ∧
    dbGet (SaveEvents [] 1 1 [exEvent1, dupEvent] 5).2
      (eventKey exEvent1.chainID (hexToAddress exEvent1.contract)
        exEvent1.blockNumber exEvent1.logIndex) = some (.ev dupEvent) := by
  refine ⟨by rfl, by decide, by rfl⟩

/-! ## C5: cursor resolution at engine start -/

/-- C5 amended: if a checkpoint exists, the next fetch window begins at
`checkpoint + 1` regardless of a smaller configured start block (the cursor
never rewinds below the checkpoint); if the checkpoint exists and
`startBlock - 1` exceeds it, the cursor advances to `startBlock - 1`; with no
checkpoint and `startBlock ≥ 1`, the first window begins at `startBlock`;
with no checkpoint and `startBlock = 0`, the cursor stays `0` and the first
window begins at block `1`. -/
theorem resolveStart_resolution (cp sb : Nat) :
    (sb ≤ cp + 1 → resolveStartCursor cp true sb = cp) ∧
    (cp + 1 < sb → resolveStartCursor cp true sb = sb - 1) ∧
    (1 ≤ sb → resolveStartCursor 0 false sb + 1 = sb) ∧
    resolveStartCursor 0 false 0 = 0 ∧
    cp ≤ resolveStartCursor cp true sb := by
  refine ⟨?_, ?_, ?_, rfl, ?_⟩
  · intro h
    rw [resolveStartCursor]
    simp only [Bool.true_eq_false, if_false]
    rw [if_neg (by omega)]
  · intro h
    rw [resolveStartCursor]
    simp only [Bool.true_eq_false, if_false]
    rw [if_pos ⟨by omega, h⟩]
  · intro h
    rw [resolveStartCursor]
    rw [if_pos rfl, if_pos (by omega)]
    omega
  · rw [resolveStartCursor]
    simp only [Bool.true_eq_false, if_false]
    split <;> omega

/-- C5 as stated is false at `startBlock = 0` with no checkpoint: the claim
says the first window then begins at `startBlock` (block `0`), but the
cursor stays `0` and the first window begins at block `1`. -/
theorem resolveStart_zero_counterexample :
    resolveStartCursor 0 false 0 + 1 = 1 ∧ (1 : Nat) ≠ 0 := ⟨rfl, by decide⟩

/-! ## C8: ListEvents argument validation -/

/-- C8 amended: `first < 0` or `skip < 0` is rejected with a validation
error (for every options value — the read has no side effect on the pure
store state); `first = 0` means unbounded (a negative `first` is *rejected*,
not treated as unbounded); an order-by field other than `blockNumber` and an
order direction other than `asc`/`desc` are rejected; omitted order fields
default to ascending by `(blockNumber, logIndex)`. -/
theorem listEvents_argument_validation (db : DB) :
    (∀ opts : ListOptions, opts.first < 0 ∨ opts.skip < 0 →
      ListEvents db opts = .error "first and skip must be non-negative") ∧
    (Reachable db → ∀ c a : Nat, c ≠ 0 → a ≠ 0 → c < 2 ^ 64 → a < 2 ^ 160 → ∀ s : Nat,
      ListEvents db (ascOpts 0 (s : Int) c a) = .ok ((targetEvents db c a).drop s)) ∧
    (∀ opts : ListOptions, ¬ opts.first < 0 → ¬ opts.skip < 0 →
      opts.orderBy ≠ [] → opts.orderBy ≠ blockNumberLit →
      ListEvents db opts = .error ("unsupported orderBy: " ++ String.mk opts.orderBy)) ∧
    (∀ (f s : Int) (c a : Nat) (dir : List Char), ¬ f < 0 → ¬ s < 0 → c ≠ 0 → a ≠ 0 →
      dir ≠ [] → dir ≠ ascLit → dir ≠ descLit →
      ListEvents db
        { first := f, skip := s, orderBy := blockNumberLit, orderDirection := dir,
          chainID := c, contract := a } =
        .error ("unsupported orderDirection: " ++ String.mk dir)) ∧
    (∀ (f s : Int) (c a : Nat),
      ListEvents db
        { first := f, skip := s, orderBy := [], orderDirection := [],
          chainID := c, contract := a } =
      ListEvents db
        { first := f, skip := s, orderBy := blockNumberLit, orderDirection := ascLit,
          chainID := c, contract := a }) := by
  refine ⟨?_, ?_, ?_, ?_, ?_⟩
  · intro opts h
    rw [ListEvents, if_pos h]
  · intro hr c a hc0 ha0 hc ha s
    have hinv := storeInv_reachable hr
    have hvals := iterVals_eventPre_eq db hc ha hinv.2
    rw [ascOpts, ListEvents_asc_scoped db hc0 ha0 0 (s : Int) (by omega) (by omega)]
    rw [listEventsAsc_eq db _ _ _ hvals s 0 rfl (by norm_num)]
    simp
  · intro opts h1 h2 h3 h4
    rw [ListEvents, if_neg (by omega)]
    dsimp only
    rw [if_neg h3, if_pos h4]
  · intro f s c a dir h1 h2 hc0 ha0 hd1 hd2 hd3
    rw [ListEvents]
    dsimp only
    rw [if_neg (by omega)]
    simp [hc0, ha0, hd1, hd2, hd3, blockNumberLit_ne_nil]
  · intro f s c a
    simp only [ListEvents]
    simp [blockNumberLit_ne_nil, ascLit_ne_nil, ascLit_ne_descLit]
    by_cases hfs : f < 0 ∨ s < 0
    · rw [if_pos hfs, if_pos hfs]
    · rw [if_neg hfs, if_neg hfs]
      by_cases hca : ¬c = 0 ∨ ¬a = 0
      · rw [if_pos hca]
        by_cases hca2 : c = 0 ∨ a = 0
        · rw [if_pos hca2]
        · rw [if_neg hca2]
          exact listEventsAsc_opts_congr db _ _ _ rfl rfl
      · rw [if_neg hca]
        exact listEventsAsc_opts_congr db _ _ _ rfl rfl

theorem listEvents_argument_validation_witness :
    ListEvents ([] : DB)
        { first := -1, skip := 0, orderBy := blockNumberLit, orderDirection := ascLit,
          chainID := 1, contract := 1 } =
      .error "first and skip must be non-negative" ∧
    ListEvents ([] : DB) (ascOpts 0 0 1 1) = .ok ((targetEvents ([] : DB) 1 1).drop 0) := by
  refine ⟨(listEvents_argument_validation ([] : DB)).1 _ (by norm_num), ?_⟩
  have h := (listEvents_argument_validation ([] : DB)).2.1 Reachable.empty 1 1
    (by norm_num) (by norm_num) (by norm_num) (by norm_num) 0
  simpa using h

/-- C8 as stated is false in its parenthetical `first <= 0 means unbounded`:
at `first = -1` the call is rejected with a validation error instead of
returning the unbounded result (`ok []` on the empty store). -/
theorem listEvents_negative_first_counterexample :
    ListEvents ([] : DB)
        { first := -1, skip := 0, orderBy := blockNumberLit, orderDirection := ascLit,
          chainID := 1, contract := 1 } =
      .error "first and skip must be non-negative" ∧
    ListEvents ([] : DB)
        { first := -1, skip := 0, orderBy := blockNumberLit, orderDirection := ascLit,
          chainID := 1, contract := 1 } ≠ .ok [] := by
  constructor
  · rw [ListEvents, if_pos (by norm_num)]
  · rw [ListEvents, if_pos (by norm_num)]
    simp

/-! ## C6: engine error classification -/

/-- The cursor left by the window loop never rewinds: it is at or above its
value at entry (it advances exactly past the committed windows). -/
theorem syncLoop_cursor_mono (ch : Chain) (c a bs : Nat) (hbs : 0 < bs) (head : Nat)
    (db : DB) (lb : Nat) : lb ≤ (syncLoop ch c a bs hbs head db lb).2.2 := by
  rw [syncLoop]
  split
  · rename_i h
    dsimp only
    cases hfl : fetchLogs ch (lb + 1)
        (if head < lb + 1 + bs - 1 then head else lb + 1 + bs - 1) with
    | error e => simp
    | ok logs =>
      dsimp only
      cases hpl : parseLogs c a logs with
      | error m => simp
      | ok evs =>
        dsimp only
        rcases hsv : SaveEvents db c a evs
            (if head < lb + 1 + bs - 1 then head else lb + 1 + bs - 1) with ⟨res, db2⟩
        cases res with
        | error m => simp
        | ok u =>
          dsimp only
          have ih := syncLoop_cursor_mono ch c a bs hbs head db2
            (if head < lb + 1 + bs - 1 then head else lb + 1 + bs - 1)
          refine le_trans ?_ ih
          split <;> omega
  · simp
termination_by head - lb
decreasing_by split <;> omega

/-- C6 amended: error classification of one iteration of the ingestion loop.
A chain-head query failure is retryable: the loop continues after the poll
interval with database and cursor unchanged.  A log fetch/filter failure is
retryable: the loop continues, with database and cursor unchanged when the
failure hits the first window of the iteration, and in general with the
cursor never rewound (it stays at the boundary of the last committed
window).  A decode failure (log missing its indexed account topic, log index
beyond uint32, undecodable data) or a store commit failure is fatal: `Run`
returns the error and the engine stops. -/
theorem indexer_error_classification (ch : Chain) (c a bs : Nat) (hbs : 0 < bs)
    (db : DB) (cur : Nat) :
    (∀ m, ch.head = .error m →
      syncOnce ch c a bs hbs db cur =
        (.error (.retryable ("fetch head block: " ++ m)), db, cur) ∧
      runIteration ch c a bs hbs db cur = .next db cur) ∧
    (∀ h m, ch.head = .ok h → cur < h →
      ch.logs (cur + 1) (if h < cur + 1 + bs - 1 then h else cur + 1 + bs - 1) = .error m →
      syncOnce ch c a bs hbs db cur =
        (.error (.retryable ("filter logs: " ++ m)), db, cur) ∧
      runIteration ch c a bs hbs db cur = .next db cur) ∧
    (∀ h ls m, ch.head = .ok h → cur < h →
      ch.logs (cur + 1) (if h < cur + 1 + bs - 1 then h else cur + 1 + bs - 1) = .ok ls →
      parseLogs c a (sortLogs ls) = .error m →
      syncOnce ch c a bs hbs db cur = (.error (.fatal m), db, cur) ∧
      runIteration ch c a bs hbs db cur = .halt m) ∧
    (∀ h ls evs m db2, ch.head = .ok h → cur < h →
      ch.logs (cur + 1) (if h < cur + 1 + bs - 1 then h else cur + 1 + bs - 1) = .ok ls →
      parseLogs c a (sortLogs ls) = .ok evs →
      SaveEvents db c a evs (if h < cur + 1 + bs - 1 then h else cur + 1 + bs - 1) =
        (.error m, db2) →
      syncOnce ch c a bs hbs db cur =
        (.error (.fatal ("store events: " ++ m)), db2, cur) ∧
      runIteration ch c a bs hbs db cur = .halt ("store events: " ++ m)) ∧
    cur ≤ (syncOnce ch c a bs hbs db cur).2.2 ∧
    (∀ m db2 cur2, syncOnce ch c a bs hbs db cur = (.error (.retryable m), db2, cur2) →
      runIteration ch c a bs hbs db cur = .next db2 cur2) ∧
    (∀ m db2 cur2, syncOnce ch c a bs hbs db cur = (.error (.fatal m), db2, cur2) →
      runIteration ch c a bs hbs db cur = .halt m) := by
  refine ⟨?_, ?_, ?_, ?_, ?_, ?_, ?_⟩
  · intro m hhead
    have hsync : syncOnce ch c a bs hbs db cur =
        (.error (.retryable ("fetch head block: " ++ m)), db, cur) := by
      rw [syncOnce, hhead]
    exact ⟨hsync, by rw [runIteration, hsync]⟩
  · intro h m hhead hcur hlogs
    have hsync : syncOnce ch c a bs hbs db cur =
        (.error (.retryable ("filter logs: " ++ m)), db, cur) := by
      rw [syncOnce, hhead]
      dsimp only
      rw [if_neg (by omega)]
      rw [syncLoop, dif_pos hcur]
      dsimp only
      rw [fetchLogs, hlogs]
    exact ⟨hsync, by rw [runIteration, hsync]⟩
  · intro h ls m hhead hcur hlogs hparse
    have hsync : syncOnce ch c a bs hbs db cur = (.error (.fatal m), db, cur) := by
      rw [syncOnce, hhead]
      dsimp only
      rw [if_neg (by omega)]
      rw [syncLoop, dif_pos hcur]
      dsimp only
      rw [fetchLogs, hlogs]
      dsimp only
      rw [hparse]
    exact ⟨hsync, by rw [runIteration, hsync]⟩
  · intro h ls evs m db2 hhead hcur hlogs hparse hsave
    have hsync : syncOnce ch c a bs hbs db cur =
        (.error (.fatal ("store events: " ++ m)), db2, cur) := by
      rw [syncOnce, hhead]
      dsimp only
      rw [if_neg (by omega)]
      rw [syncLoop, dif_pos hcur]
      dsimp only
      rw [fetchLogs, hlogs]
      dsimp only
      rw [hparse]
      dsimp only
      rw [hsave]
    exact ⟨hsync, by rw [runIteration, hsync]⟩
  · rw [syncOnce]
    cases hhead : ch.head with
    | error m => simp
    | ok h =>
      dsimp only
      split
      · simp
      · exact syncLoop_cursor_mono ch c a bs hbs h db cur
  · intro m db2 cur2 hsync
    rw [runIteration, hsync]
  · intro m db2 cur2 hsync
    rw [runIteration, hsync]

/-- The chain used by the C6 counterexample: head at block 2; the log filter
succeeds (with no logs) on the window starting at block 1 and fails on the
window starting at block 2. -/
def exChain : Chain :=
  { head := .ok 2
    logs := fun fromB _ => if fromB = 1 then .ok [] else .error "boom" }

/-- A chain whose head query fails, for the C6 witness. -/
def exChainDown : Chain :=
  { head := .error "down", logs := fun _ _ => .ok [] }

/-- C6 as stated is false in its `cursor unchanged` part: with batch size 1,
cursor 0 and head 2, the first window `[1,1]` commits (advancing the cursor
to 1 and writing checkpoint 1) and the second window's fetch fails
retryably; the iteration ends with a retryable error and the loop continues
— but with the cursor at 1 and the checkpoint written, not with the cursor
unchanged at 0. -/
theorem indexer_retryable_cursor_counterexample :
    syncOnce exChain 1 1 1 Nat.one_pos [] 0 =
      (.error (.retryable "filter logs: boom"), [(lastBlockKey 1 1, DBValue.u64 1)], 1) ∧
    runIteration exChain 1 1 1 Nat.one_pos [] 0 =
      .next [(lastBlockKey 1 1, DBValue.u64 1)] 1 ∧
    (1 : Nat) ≠ 0 := by
  have hsave : SaveEvents ([] : DB) 1 1 [] 1 =
      (.ok (), [(lastBlockKey 1 1, DBValue.u64 1)]) := rfl
  have hstep1 : syncLoop exChain 1 1 1 Nat.one_pos 2 [] 0 =
      syncLoop exChain 1 1 1 Nat.one_pos 2 [(lastBlockKey 1 1, DBValue.u64 1)] 1 := by
    rw [syncLoop, dif_pos (by norm_num)]
    dsimp only
    norm_num
    rw [show fetchLogs exChain 1 1 = .ok [] from rfl]
    dsimp only
    rw [show parseLogs 1 1 [] = .ok ([] : List Event) from rfl]
    dsimp only
    rw [hsave]
  have hstep2 : syncLoop exChain 1 1 1 Nat.one_pos 2 [(lastBlockKey 1 1, DBValue.u64 1)] 1 =
      (.error (.retryable "filter logs: boom"), [(lastBlockKey 1 1, DBValue.u64 1)], 1) := by
    rw [syncLoop, dif_pos (by norm_num)]
    dsimp only
    norm_num
    rw [show fetchLogs exChain 2 2 = .error (.retryable "filter logs: boom") from rfl]
  have hsync : syncOnce exChain 1 1 1 Nat.one_pos [] 0 =
      (.error (.retryable "filter logs: boom"), [(lastBlockKey 1 1, DBValue.u64 1)], 1) := by
    rw [syncOnce, show exChain.head = .ok 2 from rfl]
    dsimp only
    rw [if_neg (by norm_num), hstep1, hstep2]
  refine ⟨hsync, ?_, by decide⟩
  rw [runIteration, hsync]

theorem indexer_error_classification_witness :
    (0 : Nat) < 1 ∧
    syncOnce exChainDown 1 1 1 Nat.one_pos [] 0 =
      (.error (.retryable "fetch head block: down"), [], 0) ∧
    runIteration exChainDown 1 1 1 Nat.one_pos [] 0 = .next [] 0 := by
  have h := (indexer_error_classification exChainDown 1 1 1 Nat.one_pos [] 0).1 "down" rfl
  exact ⟨Nat.one_pos, h.1, h.2⟩

end OCI
